import Mathlib

/-!
Shallow embedding of `src/hash_map_oa.py`: an open-addressing hash map with
quadratic probing and tombstone deletion.

Modelling conventions:
* Python values (`object`, possibly `None`) are modelled as `Option B`;
  `none` is Python's `None`.  `get` returns `Option B`, with `none` covering
  both "fell through the loop" (Python's implicit `None` return) and a stored
  `None` value, exactly as in the source.
* The backing `DynamicArray` is a `List (Option (HashEntry K B))`; `None`
  slots are `none`.  Indexed reads use `List.getD` (all reachable reads are
  in bounds, which is proved where needed).
* `size` is an `Int`, as Python integers are unbounded and signed.
* The unbounded `while` loops of the source are modelled exactly:
  `put`'s probe loop visits positions `(h + i*i) % capacity`, which repeat
  with period `capacity`, so the loop terminates iff it stops within
  `capacity` probes; otherwise the model returns `none` (divergence).
  The mutual recursion `put` → `resize_table` → `put` is modelled with a
  fuel parameter counting resize nesting; `none` means fuel ran out, and
  every theorem takes the successful run as a hypothesis.
* `get` / `remove` loop `while count <= capacity`, i.e. over
  `count = 0, 1, ..., capacity` — that is `capacity + 1` probes.
-/

structure HashEntry (K B : Type) where
  key : K
  value : Option B
  is_tombstone : Bool
deriving Repr, DecidableEq

structure HashMap (K B : Type) where
  buckets : List (Option (HashEntry K B))
  capacity : Nat
  hash_function : K → Nat
  size : Int

namespace HashMap

/-- Trial-division loop of `HashMap._is_prime`: `while factor ** 2 <= capacity`,
testing odd factors `3, 5, 7, ...`.  The loop runs fewer than `capacity`
iterations (the factor grows by 2 each time and must stay below `capacity`),
so fuel `capacity` is never exhausted; the fuel-out branch is arbitrary. -/
def trial_loop (capacity : Nat) : Nat → Nat → Bool
  | 0, _ => true
  | fuel + 1, factor =>
    if factor * factor ≤ capacity then
      if capacity % factor == 0 then false
      else trial_loop capacity fuel (factor + 2)
    else true

/-- `HashMap._is_prime`. -/
def is_prime (capacity : Nat) : Bool :=
  if capacity == 2 || capacity == 3 then true
  else if capacity == 1 || capacity % 2 == 0 then false
  else trial_loop capacity capacity 3

/-- The `while not self._is_prime(capacity): capacity += 2` loop of
`HashMap._next_prime`.  By Bertrand's postulate an odd prime of the right
parity is always within `fuel = start + 2` steps (proved below), so the
fuel-out branch is never taken from `next_prime`. -/
def next_prime_loop : Nat → Nat → Nat
  | 0, c => c
  | fuel + 1, c => if is_prime c then c else next_prime_loop fuel (c + 2)

/-- `HashMap._next_prime`. -/
def next_prime (capacity : Nat) : Nat :=
  let c := if capacity % 2 == 0 then capacity + 1 else capacity
  next_prime_loop (c + 2) c

variable {K B : Type} [DecidableEq K]

/-- `self._buckets[i]` (bounds-checked in Python; all reads proved in range). -/
def slot_at (t : HashMap K B) (i : Nat) : Option (HashEntry K B) :=
  t.buckets.getD i none

/-- The quadratic-probe position `(hash_val + count ** 2) % capacity`. -/
def probe_pos (t : HashMap K B) (k : K) (i : Nat) : Nat :=
  (t.hash_function k + i * i) % t.capacity

/-- First index `i` in `start, start+1, ...` (at most `n` candidates) with
`p i = true`; models a `while` loop with an incrementing counter. -/
def find_first (p : Nat → Bool) : Nat → Nat → Option Nat
  | 0, _ => none
  | n + 1, start => if p start then some start else find_first p n (start + 1)

/-- The condition on which `put`'s probe loop stops at a slot: empty slot,
tombstoned slot, or matching key (in the source's branch order). -/
def stop_slot (k : K) (s : Option (HashEntry K B)) : Bool :=
  match s with
  | none => true
  | some e => e.is_tombstone || decide (e.key = k)

/-- The probe loop of `HashMap.put` (lines 86-101), without the load-factor
check.  The loop's probe positions repeat with period `capacity` and the
table is not mutated while probing, so the source loop terminates iff it
stops within `capacity` probes; `none` models divergence. -/
def put_core (t : HashMap K B) (k : K) (v : Option B) : Option (HashMap K B) :=
  match find_first (fun i => stop_slot k (t.slot_at (t.probe_pos k i))) t.capacity 0 with
  | none => none
  | some i =>
    let p := t.probe_pos k i
    match t.slot_at p with
    | none =>
      some { t with buckets := t.buckets.set p (some ⟨k, v, false⟩), size := t.size + 1 }
    | some e =>
      if e.is_tombstone then
        some { t with buckets := t.buckets.set p (some ⟨k, v, false⟩), size := t.size + 1 }
      else
        some { t with buckets := t.buckets.set p (some { e with value := v }) }

/-- The live (Occupied, non-tombstoned) entries of a slot array, in array
order, as `(key, value)` pairs — what `resize_table` re-inserts. -/
def live_entries : List (Option (HashEntry K B)) → List (K × Option B)
  | [] => []
  | none :: rest => live_entries rest
  | some e :: rest =>
    if e.is_tombstone then live_entries rest else (e.key, e.value) :: live_entries rest

/-- The re-insertion loop of `resize_table` (lines 148-152), parametrised by
the `put` used for re-insertion. -/
def reinsert_with (put1 : HashMap K B → K → Option B → Option (HashMap K B)) :
    List (K × Option B) → HashMap K B → Option (HashMap K B)
  | [], t => some t
  | (k, v) :: rest, t =>
    match put1 t k v with
    | none => none
    | some t' => reinsert_with put1 rest t'

/-- `HashMap.resize_table` (lines 125-152), parametrised by the `put` used
for re-insertion.  The `self.clear()` call and the temporary it allocates are
observationally overwritten by lines 139-146, whose net effect is a fresh
all-`None` array of the promoted capacity with `size = 0`; the old array and
capacity are saved first and the old array's first `capacity_temp` slots are
re-inserted in array order. -/
def resize_with (put1 : HashMap K B → K → Option B → Option (HashMap K B))
    (t : HashMap K B) (new_capacity : Nat) : Option (HashMap K B) :=
  if (new_capacity : Int) < t.size then some t
  else
    let c := if is_prime new_capacity then new_capacity else next_prime new_capacity
    reinsert_with put1 (live_entries (t.buckets.take t.capacity))
      { buckets := List.replicate c none, capacity := c,
        hash_function := t.hash_function, size := 0 }

/-- `HashMap.put` (lines 78-101).  `table_load() >= 0.5` is the exact integer
condition `2 * size ≥ capacity`.  The fuel bounds the depth of the
`put → resize_table → put` recursion; `none` means the model ran out of fuel
(every theorem assumes a successful, i.e. fuel-sufficient, run). -/
def putF : Nat → HashMap K B → K → Option B → Option (HashMap K B)
  | fuel, t, k, v =>
    if 2 * t.size < (t.capacity : Int) then put_core t k v
    else
      match fuel with
      | 0 => none
      | fuel + 1 =>
        (resize_with (putF fuel) t (2 * t.capacity)).bind fun t1 => put_core t1 k v

/-- `HashMap.resize_table` as a public operation, with `put` at the given
resize-nesting fuel. -/
def resize_tableF (fuel : Nat) (t : HashMap K B) (new_capacity : Nat) :
    Option (HashMap K B) :=
  resize_with (putF fuel) t new_capacity

/-- The condition on which `get`'s loop returns and `remove`'s loop removes:
a non-empty slot with matching key that is not a tombstone. -/
def live_match (t : HashMap K B) (k : K) (i : Nat) : Bool :=
  match t.slot_at (t.probe_pos k i) with
  | none => false
  | some e => !e.is_tombstone && decide (e.key = k)

/-- The loop of `HashMap.get` (lines 154-172), separating which `return`
fired: `some v` means the live-match `return` executed with value `v`
(`v : Option B` — a stored Python `None` is `none`); `none` means the loop
ran out (`count` exceeded `capacity`) and the function returned `None`
implicitly.  The loop runs `count = 0, 1, ..., capacity`. -/
def get_aux (t : HashMap K B) (k : K) : Option (Option B) :=
  match find_first (t.live_match k) (t.capacity + 1) 0 with
  | none => none
  | some i => (t.slot_at (t.probe_pos k i)).map fun e => e.value

/-- `HashMap.get`: the returned Python object (`none` = Python `None`). -/
def get (t : HashMap K B) (k : K) : Option B :=
  match get_aux t k with
  | none => none
  | some v => v

/-- `HashMap.contains_key` (lines 174-183): `self.get(key) is None`. -/
def contains_key (t : HashMap K B) (k : K) : Bool :=
  match t.get k with
  | none => false
  | some _ => true

/-- `HashMap.remove` (lines 185-203): tombstone the first live match within
`count = 0, ..., capacity` probes and decrement `size`; otherwise no change. -/
def remove (t : HashMap K B) (k : K) : HashMap K B :=
  match find_first (t.live_match k) (t.capacity + 1) 0 with
  | none => t
  | some i =>
    let p := t.probe_pos k i
    { t with
      buckets := t.buckets.set p ((t.slot_at p).map fun e => { e with is_tombstone := true }),
      size := t.size - 1 }

/-- The number of loop iterations (probes) `get` executes for `k`: the loop
body runs for `count = 0, ..., capacity` unless the live-match `return`
fires first. -/
def get_probe_count (t : HashMap K B) (k : K) : Nat :=
  match find_first (t.live_match k) (t.capacity + 1) 0 with
  | none => t.capacity + 1
  | some i => i + 1

/-- `HashMap.table_load`: `size / capacity` (exact rational). -/
def table_load (t : HashMap K B) : ℚ :=
  (t.size : ℚ) / (t.capacity : ℚ)

/-- `HashMap.get_size`. -/
def get_size (t : HashMap K B) : Int := t.size

/-- `HashMap.get_capacity`. -/
def get_capacity (t : HashMap K B) : Nat := t.capacity

/-- `HashMap.__init__`: capacity promoted by `_next_prime`, that many `None`
slots, `size = 0`. -/
def hm_init (capacity : Nat) (f : K → Nat) : HashMap K B :=
  { buckets := List.replicate (next_prime capacity) none
    capacity := next_prime capacity
    hash_function := f
    size := 0 }

/-- `HashMap.clear` (lines 205-211): takes the bucket array of a freshly
constructed `HashMap(self._capacity, ...)` (whose length is
`next_prime capacity`, which differs from `capacity` only for `capacity = 2`)
and resets `size`; `capacity` itself is not touched. -/
def hm_clear (t : HashMap K B) : HashMap K B :=
  { t with buckets := List.replicate (next_prime t.capacity) none, size := 0 }

/-- One step of the iteration protocol, `HashMap.__next__` (lines 236-247):
at cursor `ix`, a live slot is yielded (and the cursor advances), an empty or
tombstoned slot raises `StopIteration`, and a cursor past the end of the
backing array hits the array's out-of-range error. -/
inductive IterStep (K B : Type) where
  | yields (e : HashEntry K B)
  | stops
  | oob
deriving Repr, DecidableEq

/-- `HashMap.__next__` at cursor `ix`. -/
def hm_next (t : HashMap K B) (ix : Nat) : IterStep K B :=
  if ix < t.buckets.length then
    match t.buckets.getD ix none with
    | some e => if e.is_tombstone = false then .yields e else .stops
    | none => .stops
  else .oob

/-- Run the iteration protocol from cursor `ix`: collect the yielded entries
and record whether the traversal ended in the out-of-range error (`true`)
rather than `StopIteration` (`false`).  Fuel `buckets.length + 1 - ix`
always suffices since the cursor only advances past live slots. -/
def iter_collect (t : HashMap K B) : Nat → Nat → List (HashEntry K B) × Bool
  | 0, _ => ([], true)
  | fuel + 1, ix =>
    match hm_next t ix with
    | .yields e =>
      let r := iter_collect t fuel (ix + 1)
      (e :: r.1, r.2)
    | .stops => ([], false)
    | .oob => ([], true)

/-- The full run of `__iter__` (cursor reset to 0) followed by repeated
`__next__` until the sequence ends. -/
def hm_iterate (t : HashMap K B) : List (HashEntry K B) × Bool :=
  iter_collect t (t.buckets.length + 1) 0

/-- The contiguous run of live entries at the head of a slot array: the
entries a gap-truncating forward scan from index 0 yields. -/
def live_run : List (Option (HashEntry K B)) → List (HashEntry K B)
  | some e :: rest => if e.is_tombstone = false then e :: live_run rest else []
  | _ => []

/-- Whether a slot holds a live (Occupied, non-tombstoned) entry. -/
def isLiveSlot : Option (HashEntry K B) → Bool
  | some e => !e.is_tombstone
  | none => false

/-- Number of live (Occupied, non-tombstoned) slots. -/
def liveCount (l : List (Option (HashEntry K B))) : Nat :=
  l.countP isLiveSlot

/-- Tables reachable from the public constructor by the public mutating
operations (`put`, `resize_table`, `remove`, `clear`); for `put` and
`resize_table` the step requires the operation to have returned (the model's
fuel sufficed). -/
inductive Reachable : HashMap K B → Prop where
  | init (c : Nat) (f : K → Nat) : Reachable (hm_init c f)
  | put {t t' : HashMap K B} {fuel : Nat} {k : K} {v : Option B} :
      Reachable t → putF fuel t k v = some t' → Reachable t'
  | resize {t t' : HashMap K B} {fuel c : Nat} :
      Reachable t → resize_tableF fuel t c = some t' → Reachable t'
  | remove {t : HashMap K B} (k : K) : Reachable t → Reachable (t.remove k)
  | clear {t : HashMap K B} : Reachable t → Reachable (hm_clear t)

/-- Tables reachable using only the constructor, `put` and `resize_table`
(no `remove`, hence no tombstones ever). -/
inductive ReachablePR : HashMap K B → Prop where
  | init (c : Nat) (f : K → Nat) : ReachablePR (hm_init c f)
  | put {t t' : HashMap K B} {fuel : Nat} {k : K} {v : Option B} :
      ReachablePR t → putF fuel t k v = some t' → ReachablePR t'
  | resize {t t' : HashMap K B} {fuel c : Nat} :
      ReachablePR t → resize_tableF fuel t c = some t' → ReachablePR t'

/-! ### The state invariant of reachable tables -/

/-- Structural invariant maintained by every public operation: the capacity
is prime, the backing array covers at least `capacity` slots, slots past
`capacity` (which exist only after `clear` on a capacity-2 table) are empty,
`size` counts exactly the live slots, and the load never exceeds
`(capacity + 1) / 2` entries. -/
def Inv (t : HashMap K B) : Prop :=
  Nat.Prime t.capacity ∧
  t.capacity ≤ t.buckets.length ∧
  (∀ i, t.capacity ≤ i → t.buckets.getD i none = none) ∧
  t.size = (liveCount t.buckets : Int) ∧
  2 * t.size ≤ (t.capacity : Int) + 1

/-! ### Stronger invariants of remove-free histories

Tables built without `remove` never contain tombstones, never hold two live
slots for the same key, and every live slot sits at the end of a fully-live
probe-path prefix for its key.  On such tables `resize_table` preserves
`get` for every key.  (Reachable tables in general violate this: a tombstone
lying on a key's probe path before its occupied slot makes `put` insert a
duplicate, which a later resize collapses.) -/

/-- No slot of the table is a tombstone. -/
def NoTomb (t : HashMap K B) : Prop :=
  ∀ p e, t.buckets.getD p none = some e → e.is_tombstone = false

/-- No key occupies two distinct live slots. -/
def DistinctLive (t : HashMap K B) : Prop :=
  ∀ p q e1 e2, t.buckets.getD p none = some e1 → t.buckets.getD q none = some e2 →
    e1.is_tombstone = false → e2.is_tombstone = false → e1.key = e2.key → p = q

/-- Every live slot is the end of a fully-live prefix of its key's probe
sequence (which is how `put` always places entries). -/
def Chained (t : HashMap K B) : Prop :=
  ∀ p e, t.buckets.getD p none = some e → e.is_tombstone = false →
    ∃ j, j < t.capacity ∧ t.probe_pos e.key j = p ∧
      ∀ j', j' < j → isLiveSlot (t.slot_at (t.probe_pos e.key j')) = true

def Good (t : HashMap K B) : Prop :=
  Inv t ∧ NoTomb t ∧ DistinctLive t ∧ Chained t

/-- Last-binding-wins lookup in a re-insertion list. -/
def lastVal : List (K × Option B) → K → Option (Option B)
  | [], _ => none
  | (k0, v0) :: rest, k =>
    match lastVal rest k with
    | some w => some w
    | none => if k0 = k then some v0 else none

/-- `orElseGA x y` is `x` when `x` carries a value, else `y`. -/
def orElseGA (x y : Option (Option B)) : Option (Option B) :=
  match x with
  | some w => some w
  | none => y

/-- Boolean check: does some slot hold a live (non-tombstoned) entry
keyed `k`? -/
def has_live_key (t : HashMap K B) (k : K) : Bool :=
  t.buckets.any fun s =>
    match s with
    | some e => !e.is_tombstone && decide (e.key = k)
    | none => false

/-! ### Concrete tables used by witnesses and counterexamples -/

/-- The identity used as the external hash capability in concrete runs. -/
def hash_id : Nat → Nat := fun n => n

/-- `HashMap(3, hash_id)`. -/
def init3 : HashMap Nat Nat := hm_init 3 hash_id

/-- `init3` after `put(0, 5)`. -/
def W2 : HashMap Nat Nat :=
  { buckets := [some ⟨0, some 5, false⟩, none, none]
    capacity := 3
    hash_function := hash_id
    size := 1 }

/-- `W2` after `put(0, 9)` (in-place update). -/
def W3 : HashMap Nat Nat :=
  { buckets := [some ⟨0, some 9, false⟩, none, none]
    capacity := 3
    hash_function := hash_id
    size := 1 }

/-- `W2` after `resize_table(7)`. -/
def W4 : HashMap Nat Nat :=
  { buckets := [some ⟨0, some 5, false⟩, none, none, none, none, none, none]
    capacity := 7
    hash_function := hash_id
    size := 1 }

/-- `W2` after `put(1, 2)`. -/
def W5 : HashMap Nat Nat :=
  { buckets := [some ⟨0, some 5, false⟩, some ⟨1, some 2, false⟩, none]
    capacity := 3
    hash_function := hash_id
    size := 2 }

/-- `init3` after `put(0, None)`: a live slot whose stored value is `None`. -/
def W9 : HashMap Nat Nat :=
  { buckets := [some ⟨0, none, false⟩, none, none]
    capacity := 3
    hash_function := hash_id
    size := 2 - 1 }

/-- `init3` after `put(0, 10); put(1, 20)`: two entries in three slots. -/
def T11 : HashMap Nat Nat :=
  { buckets := [some ⟨0, some 10, false⟩, some ⟨1, some 20, false⟩, none]
    capacity := 3
    hash_function := hash_id
    size := 2 }

/-- `init3` after `put(0, 1); put(3, 2)` — keys 0 and 3 both hash to slot 0,
so key 3 lands at probe 1 (slot 1). -/
def C3a : HashMap Nat Nat :=
  { buckets := [some ⟨0, some 1, false⟩, some ⟨3, some 2, false⟩, none]
    capacity := 3
    hash_function := hash_id
    size := 2 }

/-- `C3a` after `remove(0)`: a tombstone at slot 0, key 3 live at slot 1. -/
def C3b : HashMap Nat Nat :=
  { buckets := [some ⟨0, some 1, true⟩, some ⟨3, some 2, false⟩, none]
    capacity := 3
    hash_function := hash_id
    size := 1 }

/-- `C3b` after `put(3, 7)`: the tombstone at slot 0 swallows the put, so
key 3 now occupies two live slots. -/
def C3c : HashMap Nat Nat :=
  { buckets := [some ⟨3, some 7, false⟩, some ⟨3, some 2, false⟩, none]
    capacity := 3
    hash_function := hash_id
    size := 2 }

/-- `C3c` after `resize_table(7)`: the duplicate collapses and the
later-in-array value 2 wins, though `get` read 7 before. -/
def C4d : HashMap Nat Nat :=
  { buckets := [none, none, none, some ⟨3, some 2, false⟩, none, none, none]
    capacity := 7
    hash_function := hash_id
    size := 1 }


/-! ### Basic lemmas about `find_first` -/

theorem find_first_none_iff (p : Nat → Bool) :
    ∀ (n s : Nat), find_first p n s = none ↔ ∀ j, s ≤ j → j < s + n → p j = false := by
  intro n
  induction n with
  | zero =>
    intro s
    constructor
    · intro _ j h1 h2; omega
    · intro _; rfl
  | succ n ih =>
    intro s
    simp only [find_first]
    by_cases hp : p s
    · simp only [hp, if_true]
      constructor
      · intro h; exact absurd h (by simp)
      · intro h; exact absurd (h s le_rfl (by omega)) (by simp [hp])
    · simp only [hp, if_false, Bool.false_eq_true, ih (s + 1)]
      constructor
      · intro h j h1 h2
        rcases Nat.eq_or_lt_of_le h1 with rfl | h1'
        · exact Bool.eq_false_iff.mpr hp
        · exact h j h1' (by omega)
      · intro h j h1 h2
        exact h j (by omega) (by omega)

theorem find_first_some_iff (p : Nat → Bool) :
    ∀ (n s i : Nat), find_first p n s = some i ↔
      s ≤ i ∧ i < s + n ∧ p i = true ∧ ∀ j, s ≤ j → j < i → p j = false := by
  intro n
  induction n with
  | zero =>
    intro s i
    simp only [find_first]
    constructor
    · intro h; exact absurd h (by simp)
    · intro ⟨h1, h2, _, _⟩; omega
  | succ n ih =>
    intro s i
    simp only [find_first]
    by_cases hp : p s
    · simp only [hp, if_true, Option.some_inj]
      constructor
      · rintro rfl
        exact ⟨le_rfl, by omega, hp, fun j h1 h2 => by omega⟩
      · rintro ⟨h1, _, _, hmin⟩
        rcases Nat.eq_or_lt_of_le h1 with rfl | h1'
        · rfl
        · exact absurd (hmin s le_rfl h1') (by simp [hp])
    · simp only [hp, if_false, Bool.false_eq_true, ih (s + 1)]
      constructor
      · rintro ⟨h1, h2, h3, hmin⟩
        refine ⟨by omega, by omega, h3, fun j hj1 hj2 => ?_⟩
        rcases Nat.eq_or_lt_of_le hj1 with rfl | hj'
        · exact Bool.eq_false_iff.mpr hp
        · exact hmin j hj' hj2
      · rintro ⟨h1, h2, h3, hmin⟩
        have hsi : s ≠ i := by
          rintro rfl; exact hp (by simp [h3])
        exact ⟨by omega, by omega, h3, fun j hj1 hj2 => hmin j (by omega) hj2⟩

/-! ### Indexing helper lemmas -/

theorem getD_set_self {α : Type} {l : List α} {i : Nat} {a d : α} (h : i < l.length) :
    (l.set i a).getD i d = a := by
  rw [List.getD_eq_getElem?_getD, List.getElem?_set_self h]; rfl

theorem getD_set_ne {α : Type} {l : List α} {i j : Nat} {a d : α} (h : i ≠ j) :
    (l.set i a).getD j d = l.getD j d := by
  rw [List.getD_eq_getElem?_getD, List.getElem?_set_ne h, ← List.getD_eq_getElem?_getD]

theorem getD_replicate_self {α : Type} {n i : Nat} {a d : α} :
    (List.replicate n a).getD i d = if i < n then a else d := by
  by_cases h : i < n
  · rw [List.getD_eq_getElem (l := List.replicate n a) (d := d)
      (by simpa using h), List.getElem_replicate, if_pos h]
  · rw [List.getD_eq_default, if_neg h]
    simpa using h

theorem liveCount_eq_countP (l : List (Option (HashEntry K B))) :
    liveCount l = l.countP isLiveSlot := rfl

theorem liveCount_set {l : List (Option (HashEntry K B))} {p : Nat}
    {x : Option (HashEntry K B)} (h : p < l.length) :
    liveCount (l.set p x) =
      (liveCount l - if isLiveSlot (l.getD p none) then 1 else 0) +
        (if isLiveSlot x then 1 else 0) := by
  rw [liveCount_eq_countP, liveCount_eq_countP, List.countP_set isLiveSlot l p x h,
    List.getD_eq_getElem (l := l) (d := none) h]

theorem liveCount_pos_of_live {l : List (Option (HashEntry K B))} {p : Nat}
    (h : p < l.length) (hl : isLiveSlot (l.getD p none) = true) : 1 ≤ liveCount l := by
  rw [liveCount_eq_countP]
  refine List.countP_pos_iff.mpr ⟨l.getD p none, ?_, hl⟩
  rw [List.getD_eq_getElem (l := l) (d := none) h]
  exact l.getElem_mem h

/-! ### Correctness of `is_prime` and `next_prime` -/

theorem trial_loop_true_iff (n : Nat) :
    ∀ (fuel f : Nat), f % 2 = 1 → n < (f + 2 * fuel) * (f + 2 * fuel) →
      (trial_loop n fuel f = true ↔
        ∀ m, f ≤ m → m % 2 = 1 → m * m ≤ n → ¬ (m ∣ n)) := by
  intro fuel
  induction fuel with
  | zero =>
    intro f hodd hbig
    simp only [trial_loop, true_iff]
    intro m h1 _ h3
    nlinarith
  | succ fuel ih =>
    intro f hodd hbig
    simp only [trial_loop]
    by_cases hsq : f * f ≤ n
    · simp only [hsq, if_true]
      by_cases hdvd : n % f == 0
      · have hfd : f ∣ n := Nat.dvd_of_mod_eq_zero (by simpa using hdvd)
        simp only [hdvd, if_true, Bool.false_eq_true, false_iff]
        intro h
        exact h f le_rfl hodd hsq hfd
      · simp only [hdvd, Bool.false_eq_true, if_false]
        have hnd : ¬ (f ∣ n) := by
          intro hfd
          have h0 : n % f = 0 := Nat.mod_eq_zero_of_dvd hfd
          simp [h0] at hdvd
        have harith : f + 2 + 2 * fuel = f + 2 * (fuel + 1) := by ring
        rw [ih (f + 2) (by omega) (by rw [harith]; exact hbig)]
        constructor
        · intro h m h1 h2 h3
          rcases Nat.lt_or_ge m (f + 2) with hm | hm
          · have : m = f := by omega
            subst this; exact hnd
          · exact h m hm h2 h3
        · intro h m h1 h2 h3
          exact h m (by omega) h2 h3
    · simp only [hsq, if_false, true_iff]
      intro m h1 _ h3
      nlinarith

/-- The source's trial-division primality test agrees with primality. -/
theorem is_prime_iff_prime (n : Nat) : is_prime n = true ↔ Nat.Prime n := by
  unfold is_prime
  rcases Nat.lt_or_ge n 5 with h5 | h5
  · interval_cases n <;> decide
  · rw [if_neg (by simp; omega : ¬ ((n == 2 || n == 3) = true))]
    rcases Nat.mod_two_eq_zero_or_one n with hev | hodd
    · have hdv : 2 ∣ n := Nat.dvd_of_mod_eq_zero hev
      rw [if_pos (by simp; omega : (n == 1 || n % 2 == 0) = true)]
      simp only [Bool.false_eq_true, false_iff]
      intro hp
      rcases (Nat.Prime.eq_one_or_self_of_dvd hp 2 hdv) with h | h <;> omega
    · rw [if_neg (by simp; omega : ¬ ((n == 1 || n % 2 == 0) = true))]
      rw [trial_loop_true_iff n n 3 (by decide) (by nlinarith)]
      constructor
      · intro h
        rw [Nat.prime_def_le_sqrt]
        refine ⟨by omega, fun m hm2 hms => ?_⟩
        have hmsq : m * m ≤ n := Nat.le_sqrt.mp hms
        rcases Nat.mod_two_eq_zero_or_one m with hme | hmo
        · intro hmd
          have : 2 ∣ n := dvd_trans (Nat.dvd_of_mod_eq_zero hme) hmd
          have : n % 2 = 0 := Nat.mod_eq_zero_of_dvd this
          omega
        · exact h m (by omega) hmo hmsq
      · intro hp m hm3 _ hmsq hmd
        rcases (Nat.Prime.eq_one_or_self_of_dvd hp m hmd) with h | h
        · omega
        · subst h; nlinarith

/-- `next_prime_loop` never decreases its argument. -/
theorem le_next_prime_loop : ∀ (fuel c : Nat), c ≤ next_prime_loop fuel c := by
  intro fuel
  induction fuel with
  | zero => intro c; exact le_rfl
  | succ fuel ih =>
    intro c
    simp only [next_prime_loop]
    split
    · exact le_rfl
    · exact le_trans (by omega) (ih (c + 2))

/-- `next_prime_loop` preserves parity. -/
theorem next_prime_loop_mod_two : ∀ (fuel c : Nat), next_prime_loop fuel c % 2 = c % 2 := by
  intro fuel
  induction fuel with
  | zero => intro c; rfl
  | succ fuel ih =>
    intro c
    simp only [next_prime_loop]
    split
    · rfl
    · rw [ih (c + 2)]; omega

/-- If an odd prime lies within reach of the fuel, `next_prime_loop` lands on
a prime at least as large as the start. -/
theorem next_prime_loop_spec : ∀ (fuel c : Nat), c % 2 = 1 →
    (∃ p, Nat.Prime p ∧ p % 2 = 1 ∧ c ≤ p ∧ p ≤ c + 2 * fuel) →
    Nat.Prime (next_prime_loop fuel c) := by
  intro fuel
  induction fuel with
  | zero =>
    rintro c _ ⟨p, hp, _, h1, h2⟩
    have : p = c := by omega
    subst this
    exact hp
  | succ fuel ih =>
    rintro c hodd ⟨p, hp, hpo, h1, h2⟩
    simp only [next_prime_loop]
    by_cases hc : is_prime c
    · rw [if_pos hc]
      exact (is_prime_iff_prime c).mp hc
    · rw [if_neg hc]
      refine ih (c + 2) (by omega) ⟨p, hp, hpo, ?_, by omega⟩
      have hne : p ≠ c := by
        rintro rfl
        exact hc ((is_prime_iff_prime p).mpr hp)
      omega

/-- There is an odd prime in `[c, c + 2 * (c + 2)]` for odd `c`. -/
theorem exists_odd_prime_in_range (c : Nat) (hodd : c % 2 = 1) :
    ∃ p, Nat.Prime p ∧ p % 2 = 1 ∧ c ≤ p ∧ p ≤ c + 2 * (c + 2) := by
  rcases Nat.lt_or_ge c 3 with hc | hc
  · have : c = 1 := by omega
    subst this
    exact ⟨3, by norm_num, by decide, by omega, by omega⟩
  · obtain ⟨p, hp, h1, h2⟩ := Nat.bertrand c (by omega)
    have hpo : p % 2 = 1 := by
      rcases Nat.mod_two_eq_zero_or_one p with he | ho
      · have : 2 ∣ p := Nat.dvd_of_mod_eq_zero he
        rcases (Nat.Prime.eq_one_or_self_of_dvd hp 2 this) with h | h <;> omega
      · exact ho
    exact ⟨p, hp, hpo, by omega, by omega⟩

/-- `_next_prime` returns a prime. -/
theorem next_prime_prime (n : Nat) : Nat.Prime (next_prime n) := by
  unfold next_prime
  by_cases hev : n % 2 == 0
  · simp only [hev, if_true]
    refine next_prime_loop_spec (n + 1 + 2) (n + 1) (by simp at hev; omega) ?_
    obtain ⟨p, hp, hpo, h1, h2⟩ := exists_odd_prime_in_range (n + 1) (by simp at hev; omega)
    exact ⟨p, hp, hpo, h1, by omega⟩
  · simp only [hev, Bool.false_eq_true, if_false]
    refine next_prime_loop_spec (n + 2) n (by simp at hev; omega) ?_
    obtain ⟨p, hp, hpo, h1, h2⟩ := exists_odd_prime_in_range n (by simp at hev; omega)
    exact ⟨p, hp, hpo, h1, by omega⟩

/-- `_next_prime` never returns less than its argument. -/
theorem le_next_prime (n : Nat) : n ≤ next_prime n := by
  unfold next_prime
  by_cases hev : n % 2 == 0
  · simp only [hev, if_true]
    exact le_trans (by omega) (le_next_prime_loop (n + 1 + 2) (n + 1))
  · simp only [hev, Bool.false_eq_true, if_false]
    exact le_next_prime_loop (n + 2) n

/-- `_next_prime` always returns an odd number. -/
theorem next_prime_mod_two (n : Nat) : next_prime n % 2 = 1 := by
  unfold next_prime
  by_cases hev : n % 2 == 0
  · simp only [hev, if_true]
    rw [next_prime_loop_mod_two]
    simp at hev; omega
  · simp only [hev, Bool.false_eq_true, if_false]
    rw [next_prime_loop_mod_two]
    simp at hev; omega

/-- On an even argument, `_next_prime` strictly increases. -/
theorem next_prime_even_gt {n : Nat} (h : n % 2 = 0) : n + 1 ≤ next_prime n := by
  have h1 := next_prime_mod_two n
  have h2 := le_next_prime n
  omega

theorem liveCount_replicate_none (n : Nat) :
    liveCount (List.replicate n (none : Option (HashEntry K B))) = 0 := by
  rw [liveCount_eq_countP, List.countP_eq_zero]
  intro a ha
  rw [List.eq_of_mem_replicate ha]
  simp [isLiveSlot]

theorem inv_fresh {c : Nat} (hc : Nat.Prime c) (f : K → Nat) :
    Inv ({ buckets := List.replicate c none, capacity := c,
           hash_function := f, size := 0 } : HashMap K B) := by
  refine ⟨hc, by simp, fun i hi => ?_, by simp [liveCount_replicate_none], ?_⟩
  · have hi' : c ≤ i := hi
    show (List.replicate c (none : Option (HashEntry K B))).getD i none = none
    rw [getD_replicate_self, if_neg (by omega)]
  · show 2 * (0 : Int) ≤ (c : Int) + 1
    have := hc.two_le
    push_cast
    omega

theorem inv_init (c : Nat) (f : K → Nat) : Inv (hm_init c f (K := K) (B := B)) :=
  inv_fresh (next_prime_prime c) f

theorem stop_slot_eq_false_iff {k : K} {s : Option (HashEntry K B)} :
    stop_slot k s = false ↔ ∃ e, s = some e ∧ e.is_tombstone = false ∧ e.key ≠ k := by
  cases s with
  | none => simp [stop_slot]
  | some e =>
    simp only [stop_slot, Bool.or_eq_false_iff, decide_eq_false_iff_not]
    constructor
    · rintro ⟨h1, h2⟩; exact ⟨e, rfl, h1, h2⟩
    · rintro ⟨e', he', h1, h2⟩
      cases Option.some_inj.mp he'
      exact ⟨h1, h2⟩

theorem live_match_eq_true_iff {t : HashMap K B} {k : K} {i : Nat} :
    t.live_match k i = true ↔
      ∃ e, t.slot_at (t.probe_pos k i) = some e ∧ e.is_tombstone = false ∧ e.key = k := by
  unfold live_match
  cases hs : t.slot_at (t.probe_pos k i) with
  | none => simp
  | some e =>
    simp only [Bool.and_eq_true, Bool.not_eq_true', decide_eq_true_eq]
    constructor
    · rintro ⟨h1, h2⟩; exact ⟨e, rfl, h1, h2⟩
    · rintro ⟨e', he', h1, h2⟩
      cases Option.some_inj.mp he'
      exact ⟨h1, h2⟩

/-- Dissection of a successful `put` probe loop: there is a first stopping
probe index `i`, and the update is either a fresh insertion into an empty or
tombstoned slot (incrementing `size`) or an in-place value update of a live
slot holding `k`. -/
theorem put_core_some {t : HashMap K B} {k : K} {v : Option B} {t' : HashMap K B}
    (h : put_core t k v = some t') :
    ∃ i, i < t.capacity ∧
      (∀ j, j < i → stop_slot k (t.slot_at (t.probe_pos k j)) = false) ∧
      stop_slot k (t.slot_at (t.probe_pos k i)) = true ∧
      ((isLiveSlot (t.slot_at (t.probe_pos k i)) = false ∧
        t' = { t with
               buckets := t.buckets.set (t.probe_pos k i) (some ⟨k, v, false⟩)
               size := t.size + 1 }) ∨
       (∃ e, t.slot_at (t.probe_pos k i) = some e ∧ e.is_tombstone = false ∧ e.key = k ∧
        t' = { t with
               buckets := t.buckets.set (t.probe_pos k i) (some { e with value := v }) })) := by
  unfold put_core at h
  rcases hf : find_first (fun i => stop_slot k (t.slot_at (t.probe_pos k i))) t.capacity 0 with
    _ | i
  · rw [hf] at h; exact absurd h (by simp)
  · rw [hf] at h
    simp only [] at h
    obtain ⟨-, hlt, hstop, hmin⟩ := (find_first_some_iff _ _ _ _).mp hf
    refine ⟨i, by omega, fun j hj => hmin j (by omega) hj, hstop, ?_⟩
    rcases hs : t.slot_at (t.probe_pos k i) with _ | e
    · rw [hs] at h
      simp only [] at h
      exact Or.inl ⟨rfl, by simpa using h.symm⟩
    · rw [hs] at h
      simp only [] at h
      by_cases ht : e.is_tombstone
      · rw [if_pos ht] at h
        refine Or.inl ⟨by simp [isLiveSlot, ht], by simpa using h.symm⟩
      · rw [if_neg ht] at h
        have hkey : e.key = k := by
          rw [hs] at hstop
          simp only [stop_slot, Bool.or_eq_true, decide_eq_true_eq] at hstop
          rcases hstop with h' | h'
          · exact absurd h' ht
          · exact h'
        exact Or.inr ⟨e, rfl, by simpa using ht, hkey, by simpa using h.symm⟩

theorem put_core_inv {t : HashMap K B} {k : K} {v : Option B} {t' : HashMap K B}
    (hInv : Inv t) (hload : 2 * t.size < (t.capacity : Int))
    (h : put_core t k v = some t') :
    Inv t' ∧ t'.size ≤ t.size + 1 ∧ t'.capacity = t.capacity := by
  obtain ⟨hprime, hlen, hhigh, hsize, hbound⟩ := hInv
  obtain ⟨i, hi, hmin, hstop, hcase⟩ := put_core_some h
  have hcap0 : 0 < t.capacity := hprime.two_le.trans_lt' (by omega)
  have hpos : t.probe_pos k i < t.capacity := Nat.mod_lt _ hcap0
  have hposlen : t.probe_pos k i < t.buckets.length := lt_of_lt_of_le hpos hlen
  rcases hcase with ⟨hdead, rfl⟩ | ⟨e, he, htomb, hkey, rfl⟩
  · have hdead' : isLiveSlot (t.buckets.getD (t.probe_pos k i) none) = false := hdead
    have hlc : liveCount (t.buckets.set (t.probe_pos k i) (some ⟨k, v, false⟩)) =
        liveCount t.buckets + 1 := by
      rw [liveCount_set hposlen, hdead']
      simp [isLiveSlot]
    refine ⟨⟨hprime, ?_, fun j hj => ?_, ?_, ?_⟩, by simp, rfl⟩
    · show t.capacity ≤ (t.buckets.set (t.probe_pos k i) (some ⟨k, v, false⟩)).length
      simpa using hlen
    · have hj' : t.capacity ≤ j := hj
      show (t.buckets.set (t.probe_pos k i) (some ⟨k, v, false⟩)).getD j none = none
      rw [getD_set_ne (by omega), hhigh j hj']
    · show t.size + 1 =
        (liveCount (t.buckets.set (t.probe_pos k i) (some ⟨k, v, false⟩)) : Int)
      rw [hlc, hsize]
      push_cast
      ring
    · show 2 * (t.size + 1) ≤ (t.capacity : Int) + 1
      omega
  · have he' : t.buckets.getD (t.probe_pos k i) none = some e := he
    have hlive : isLiveSlot (t.buckets.getD (t.probe_pos k i) none) = true := by
      rw [he']; simp [isLiveSlot, htomb]
    have hone : 1 ≤ liveCount t.buckets := liveCount_pos_of_live hposlen hlive
    have hlc : liveCount (t.buckets.set (t.probe_pos k i) (some { e with value := v })) =
        liveCount t.buckets := by
      rw [liveCount_set hposlen, he']
      simp only [isLiveSlot, htomb, Bool.not_false, if_true]
      omega
    refine ⟨⟨hprime, ?_, fun j hj => ?_, ?_, ?_⟩, by show t.size ≤ t.size + 1; omega, rfl⟩
    · show t.capacity ≤ (t.buckets.set (t.probe_pos k i) (some { e with value := v })).length
      simpa using hlen
    · have hj' : t.capacity ≤ j := hj
      show (t.buckets.set (t.probe_pos k i) (some { e with value := v })).getD j none = none
      rw [getD_set_ne (by omega), hhigh j hj']
    · show t.size =
        (liveCount (t.buckets.set (t.probe_pos k i) (some { e with value := v })) : Int)
      rw [hlc, hsize]
    · show 2 * t.size ≤ (t.capacity : Int) + 1
      omega

theorem putF_zero (t : HashMap K B) (k : K) (v : Option B) :
    putF 0 t k v =
      if 2 * t.size < (t.capacity : Int) then put_core t k v else none := rfl

theorem putF_succ (fuel : Nat) (t : HashMap K B) (k : K) (v : Option B) :
    putF (fuel + 1) t k v =
      if 2 * t.size < (t.capacity : Int) then put_core t k v
      else (resize_with (putF fuel) t (2 * t.capacity)).bind fun t1 => put_core t1 k v := rfl

theorem liveCount_cons (x : Option (HashEntry K B)) (l : List (Option (HashEntry K B))) :
    liveCount (x :: l) = (if isLiveSlot x then 1 else 0) + liveCount l := by
  rw [liveCount_eq_countP, liveCount_eq_countP, List.countP_cons]
  split <;> omega

theorem live_entries_length (l : List (Option (HashEntry K B))) :
    (live_entries l).length = liveCount l := by
  induction l with
  | nil => rfl
  | cons x rest ih =>
    cases x with
    | none =>
      rw [liveCount_cons]
      simpa [live_entries, isLiveSlot] using ih
    | some e =>
      rw [liveCount_cons]
      by_cases ht : e.is_tombstone
      · simp [live_entries, isLiveSlot, ht, ih]
      · simp only [live_entries, isLiveSlot, ht, ih, if_neg, List.length_cons,
          Bool.not_false, Bool.false_eq_true, if_false, if_true]
        omega

theorem liveCount_drop_of_high_none {l : List (Option (HashEntry K B))} {c : Nat}
    (h : ∀ i, c ≤ i → l.getD i none = none) : liveCount (l.drop c) = 0 := by
  rw [liveCount_eq_countP, List.countP_eq_zero]
  intro a ha
  obtain ⟨j, hj, rfl⟩ := List.mem_iff_getElem.mp ha
  have hj' : c + j < l.length := by
    have := l.length_drop c
    omega
  have : (l.drop c)[j] = l.getD (c + j) none := by
    rw [List.getElem_drop, List.getD_eq_getElem (l := l) (d := none) hj']
  rw [this, h (c + j) (by omega)]
  simp [isLiveSlot]

theorem liveCount_take_of_high_none {l : List (Option (HashEntry K B))} {c : Nat}
    (h : ∀ i, c ≤ i → l.getD i none = none) : liveCount (l.take c) = liveCount l := by
  conv_rhs => rw [← List.take_append_drop c l]
  rw [liveCount_eq_countP, liveCount_eq_countP, List.countP_append,
    ← liveCount_eq_countP, ← liveCount_eq_countP, liveCount_drop_of_high_none h]
  omega

theorem reinsert_inv {fuel : Nat}
    (hput : ∀ (t : HashMap K B) (k : K) (v : Option B) (t' : HashMap K B),
      Inv t → putF fuel t k v = some t' →
      Inv t' ∧ t'.size ≤ t.size + 1 ∧ t.capacity ≤ t'.capacity) :
    ∀ (es : List (K × Option B)) (t0 t' : HashMap K B), Inv t0 →
      reinsert_with (putF fuel) es t0 = some t' →
      Inv t' ∧ t'.size ≤ t0.size + (es.length : Int) ∧ t0.capacity ≤ t'.capacity := by
  intro es
  induction es with
  | nil =>
    intro t0 t' h0 h
    have : t0 = t' := by simpa [reinsert_with] using h
    subst this
    exact ⟨h0, by simp, le_rfl⟩
  | cons kv rest ih =>
    rintro t0 t' h0 h
    rcases kv with ⟨k, v⟩
    unfold reinsert_with at h
    rcases hp : putF fuel t0 k v with _ | t1
    · rw [hp] at h; exact absurd h (by simp)
    · rw [hp] at h
      simp only [] at h
      obtain ⟨h1, h2, h3⟩ := hput t0 k v t1 h0 hp
      obtain ⟨h4, h5, h6⟩ := ih t1 t' h1 h
      refine ⟨h4, ?_, le_trans h3 h6⟩
      simp only [List.length_cons]
      push_cast
      omega

theorem resize_inv {fuel : Nat}
    (hput : ∀ (t : HashMap K B) (k : K) (v : Option B) (t' : HashMap K B),
      Inv t → putF fuel t k v = some t' →
      Inv t' ∧ t'.size ≤ t.size + 1 ∧ t.capacity ≤ t'.capacity)
    (t : HashMap K B) (c : Nat) (t' : HashMap K B) (hInv : Inv t)
    (h : resize_with (putF fuel) t c = some t') :
    Inv t' ∧ t'.size ≤ t.size ∧
      (((c : Int) < t.size ∧ t' = t) ∨
        (if is_prime c then c else next_prime c) ≤ t'.capacity) := by
  unfold resize_with at h
  by_cases hno : (c : Int) < t.size
  · rw [if_pos hno] at h
    have : t = t' := by simpa using h
    subst this
    exact ⟨hInv, le_rfl, Or.inl ⟨hno, rfl⟩⟩
  · rw [if_neg hno] at h
    simp only [] at h
    have hc'p : Nat.Prime (if is_prime c then c else next_prime c) := by
      split
      · exact (is_prime_iff_prime c).mp ‹_›
      · exact next_prime_prime c
    have hfresh := inv_fresh (B := B) hc'p t.hash_function
    obtain ⟨h1, h2, h3⟩ := reinsert_inv hput _ _ _ hfresh h
    obtain ⟨hp, hlen, hhigh, hsz, hb⟩ := hInv
    refine ⟨h1, ?_, Or.inr h3⟩
    have hel : ((live_entries (t.buckets.take t.capacity)).length : Int) = t.size := by
      rw [live_entries_length, liveCount_take_of_high_none hhigh, ← hsz]
    rw [hel] at h2
    simpa using h2

theorem put_inv : ∀ (fuel : Nat) (t : HashMap K B) (k : K) (v : Option B) (t' : HashMap K B),
    Inv t → putF fuel t k v = some t' →
    Inv t' ∧ t'.size ≤ t.size + 1 ∧ t.capacity ≤ t'.capacity := by
  intro fuel
  induction fuel with
  | zero =>
    intro t k v t' hInv h
    rw [putF_zero] at h
    by_cases hl : 2 * t.size < (t.capacity : Int)
    · rw [if_pos hl] at h
      obtain ⟨h1, h2, h3⟩ := put_core_inv hInv hl h
      exact ⟨h1, h2, le_of_eq h3.symm⟩
    · rw [if_neg hl] at h
      exact absurd h (by simp)
  | succ fuel ih =>
    intro t k v t' hInv h
    rw [putF_succ] at h
    by_cases hl : 2 * t.size < (t.capacity : Int)
    · rw [if_pos hl] at h
      obtain ⟨h1, h2, h3⟩ := put_core_inv hInv hl h
      exact ⟨h1, h2, le_of_eq h3.symm⟩
    · rw [if_neg hl] at h
      rcases hr : resize_with (putF fuel) t (2 * t.capacity) with _ | t1
      · rw [hr] at h; exact absurd h (by simp)
      · rw [hr] at h
        replace h : put_core t1 k v = some t' := h
        obtain ⟨hI1, hs1, hd⟩ := resize_inv ih t (2 * t.capacity) t1 hInv hr
        have hcap2 := hInv.1.two_le
        have hszcap : t.size ≤ (t.capacity : Int) := by
          obtain ⟨-, -, -, -, hb⟩ := hInv
          omega
        have hcap1 : 2 * t.capacity + 1 ≤ t1.capacity := by
          rcases hd with ⟨hlt, rfl⟩ | hd
          · exfalso; push_cast at hlt; omega
          · have hev : is_prime (2 * t.capacity) = false := by
              cases hq : is_prime (2 * t.capacity)
              · rfl
              · exfalso
                have hpr := (is_prime_iff_prime _).mp hq
                have h2d : (2 : Nat) ∣ 2 * t.capacity := ⟨t.capacity, rfl⟩
                rcases hpr.eq_one_or_self_of_dvd 2 h2d with h' | h' <;> omega
            rw [hev] at hd
            simp only [Bool.false_eq_true, if_false] at hd
            have := next_prime_even_gt (n := 2 * t.capacity) (by omega)
            omega
        have hload1 : 2 * t1.size < (t1.capacity : Int) := by
          obtain ⟨-, -, -, -, hb⟩ := hInv
          push_cast at hcap1 ⊢
          omega
        obtain ⟨h1, h2, h3⟩ := put_core_inv hI1 hload1 h
        refine ⟨h1, by omega, ?_⟩
        rw [h3]
        omega

theorem remove_inv {t : HashMap K B} (k : K) (hInv : Inv t) : Inv (t.remove k) := by
  obtain ⟨hp, hlen, hhigh, hsz, hb⟩ := hInv
  unfold remove
  rcases hf : find_first (t.live_match k) (t.capacity + 1) 0 with _ | i
  · exact ⟨hp, hlen, hhigh, hsz, hb⟩
  · simp only []
    obtain ⟨-, -, hm, -⟩ := (find_first_some_iff _ _ _ _).mp hf
    obtain ⟨e, he, ht, hk⟩ := live_match_eq_true_iff.mp hm
    have hcap0 : 0 < t.capacity := hp.two_le.trans_lt' (by omega)
    have hpos : t.probe_pos k i < t.capacity := Nat.mod_lt _ hcap0
    have hposlen : t.probe_pos k i < t.buckets.length := lt_of_lt_of_le hpos hlen
    have he' : t.buckets.getD (t.probe_pos k i) none = some e := he
    have hlive : isLiveSlot (t.buckets.getD (t.probe_pos k i) none) = true := by
      rw [he']; simp [isLiveSlot, ht]
    have hone : 1 ≤ liveCount t.buckets := liveCount_pos_of_live hposlen hlive
    have hmap : (t.slot_at (t.probe_pos k i)).map
        (fun e => { e with is_tombstone := true }) = some { e with is_tombstone := true } := by
      rw [he]; rfl
    have hlc : liveCount (t.buckets.set (t.probe_pos k i)
        ((t.slot_at (t.probe_pos k i)).map fun e => { e with is_tombstone := true })) =
        liveCount t.buckets - 1 := by
      rw [hmap, liveCount_set hposlen, he']
      simp only [isLiveSlot, ht, Bool.not_false, if_true, Bool.not_true,
        Bool.false_eq_true, if_false]
      omega
    refine ⟨hp, ?_, fun j hj => ?_, ?_, ?_⟩
    · show t.capacity ≤ (t.buckets.set _ _).length
      simpa using hlen
    · have hj' : t.capacity ≤ j := hj
      show (t.buckets.set _ _).getD j none = none
      rw [getD_set_ne (by omega), hhigh j hj']
    · show t.size - 1 = (liveCount (t.buckets.set _ _) : Int)
      rw [hlc, hsz]
      push_cast [hone]
      ring
    · show 2 * (t.size - 1) ≤ (t.capacity : Int) + 1
      omega

theorem clear_inv {t : HashMap K B} (hInv : Inv t) : Inv (hm_clear t) := by
  obtain ⟨hp, -, -, -, -⟩ := hInv
  refine ⟨hp, ?_, fun i hi => ?_, ?_, ?_⟩
  · show t.capacity ≤ (List.replicate (next_prime t.capacity) (none : Option (HashEntry K B))).length
    simpa using le_next_prime t.capacity
  · have hi' : t.capacity ≤ i := hi
    show (List.replicate (next_prime t.capacity) (none : Option (HashEntry K B))).getD i none = none
    rw [getD_replicate_self]
    split <;> rfl
  · show (0 : Int) = (liveCount (List.replicate (next_prime t.capacity) none) : Int)
    rw [liveCount_replicate_none]
    rfl
  · show 2 * (0 : Int) ≤ (t.capacity : Int) + 1
    have := hp.two_le
    push_cast
    omega

/-- Every reachable table satisfies the structural invariant. -/
theorem reachable_inv {t : HashMap K B} (h : Reachable t) : Inv t := by
  induction h with
  | init c f => exact inv_init c f
  | put _ hstep ih => exact (put_inv _ _ _ _ _ ih hstep).1
  | resize _ hstep ih => exact (resize_inv (fun a b c d => put_inv _ a b c d) _ _ _ ih hstep).1
  | remove k _ ih => exact remove_inv k ih
  | clear _ ih => exact clear_inv ih

/-! ### `get` after `put` -/

/-- After overwriting the first probe-stopping slot of `k` with a live entry
for `k`, `get`'s loop returns exactly that entry's value. -/
theorem get_aux_after_set {t : HashMap K B} {k : K} {i : Nat} (e' : HashEntry K B)
    (hlen : t.capacity ≤ t.buckets.length) (hi : i < t.capacity)
    (hmin : ∀ j, j < i → stop_slot k (t.slot_at (t.probe_pos k j)) = false)
    (hstop : stop_slot k (t.slot_at (t.probe_pos k i)) = true)
    (hkey : e'.key = k) (htomb : e'.is_tombstone = false) (sz : Int) :
    get_aux { t with
              buckets := t.buckets.set (t.probe_pos k i) (some e')
              size := sz } k = some e'.value := by
  have hposlen : t.probe_pos k i < t.buckets.length :=
    lt_of_lt_of_le (Nat.mod_lt _ (by omega)) hlen
  have hne : ∀ j, j < i → t.probe_pos k j ≠ t.probe_pos k i := by
    intro j hj heq
    have hm := hmin j hj
    rw [show t.slot_at (t.probe_pos k j) = t.slot_at (t.probe_pos k i) from by rw [heq],
      hstop] at hm
    cases hm
  set t' : HashMap K B :=
    { t with
      buckets := t.buckets.set (t.probe_pos k i) (some e')
      size := sz } with ht'
  have hslot_i : t'.slot_at (t'.probe_pos k i) = some e' := by
    show (t.buckets.set (t.probe_pos k i) (some e')).getD (t.probe_pos k i) none = some e'
    exact getD_set_self hposlen
  have hff : find_first (t'.live_match k) (t'.capacity + 1) 0 = some i := by
    apply (find_first_some_iff _ _ _ _).mpr
    refine ⟨Nat.zero_le i, ?_, ?_, ?_⟩
    · show i < 0 + (t.capacity + 1)
      omega
    · exact live_match_eq_true_iff.mpr ⟨e', hslot_i, htomb, hkey⟩
    · intro j _ hj
      apply Bool.eq_false_iff.mpr
      intro hlm
      obtain ⟨ej, hej, htj, hkj⟩ := live_match_eq_true_iff.mp hlm
      have hslot_j : t'.slot_at (t'.probe_pos k j) = t.slot_at (t.probe_pos k j) := by
        show (t.buckets.set (t.probe_pos k i) (some e')).getD (t.probe_pos k j) none =
          t.buckets.getD (t.probe_pos k j) none
        exact getD_set_ne (fun he => (hne j hj) he.symm)
      rw [hslot_j] at hej
      have := hmin j hj
      rw [stop_slot_eq_false_iff] at this
      obtain ⟨e2, he2, -, hk2⟩ := this
      rw [hej] at he2
      cases Option.some_inj.mp he2
      exact hk2 hkj
  unfold get_aux
  rw [hff]
  simp only []
  rw [hslot_i]
  rfl

/-- After a successful `put` probe loop for `k`, `get`'s loop finds a live
entry for `k` holding exactly the value just stored. -/
theorem put_core_get_aux {t : HashMap K B} {k : K} {v : Option B} {t' : HashMap K B}
    (hlen : t.capacity ≤ t.buckets.length) (h : put_core t k v = some t') :
    get_aux t' k = some v := by
  obtain ⟨i, hi, hmin, hstop, hcase⟩ := put_core_some h
  rcases hcase with ⟨-, rfl⟩ | ⟨e, -, htomb, hkey, rfl⟩
  · exact get_aux_after_set ⟨k, v, false⟩ hlen hi hmin hstop rfl rfl _
  · exact get_aux_after_set { e with value := v } hlen hi hmin hstop hkey htomb _

/-- `put` never changes what `get` sees for any other key. -/
theorem put_core_get_aux_ne {t : HashMap K B} {k : K} {v : Option B} {t' : HashMap K B}
    (hlen : t.capacity ≤ t.buckets.length) (h : put_core t k v = some t')
    {k' : K} (hk : k' ≠ k) : get_aux t' k' = get_aux t k' := by
  obtain ⟨i, hi, hmin, hstop, hcase⟩ := put_core_some h
  have hposlen : t.probe_pos k i < t.buckets.length :=
    lt_of_lt_of_le (Nat.mod_lt _ (by omega)) hlen
  -- in both branches the written slot holds an entry keyed `k`
  obtain ⟨e', sz, he'key, rfl⟩ :
      ∃ (e' : HashEntry K B) (sz : Int), e'.key = k ∧
        t' = { t with
               buckets := t.buckets.set (t.probe_pos k i) (some e')
               size := sz } := by
    rcases hcase with ⟨-, rfl⟩ | ⟨e, -, -, hkey, rfl⟩
    · exact ⟨⟨k, v, false⟩, t.size + 1, rfl, rfl⟩
    · exact ⟨{ e with value := v }, t.size, hkey, rfl⟩
  set t' : HashMap K B :=
    { t with
      buckets := t.buckets.set (t.probe_pos k i) (some e')
      size := sz } with ht'
  have hslot : ∀ j : Nat, t'.slot_at (t'.probe_pos k' j) = t.slot_at (t.probe_pos k' j) ∨
      (t'.slot_at (t'.probe_pos k' j) = some e' ∧
        t.probe_pos k' j = t.probe_pos k i) := by
    intro j
    by_cases hpj : t.probe_pos k' j = t.probe_pos k i
    · refine Or.inr ⟨?_, hpj⟩
      show (t.buckets.set (t.probe_pos k i) (some e')).getD (t.probe_pos k' j) none = some e'
      rw [hpj]
      exact getD_set_self hposlen
    · refine Or.inl ?_
      show (t.buckets.set (t.probe_pos k i) (some e')).getD (t.probe_pos k' j) none =
        t.buckets.getD (t.probe_pos k' j) none
      exact getD_set_ne (fun he => hpj he.symm)
  have hlm : ∀ j : Nat, t'.live_match k' j = t.live_match k' j := by
    intro j
    rcases hslot j with heq | ⟨heq, hpj⟩
    · unfold live_match
      rw [show t'.probe_pos k' j = t.probe_pos k' j from rfl] at heq ⊢
      rw [show t'.slot_at (t.probe_pos k' j) = t.slot_at (t.probe_pos k' j) from heq]
    · -- both sides are `false`: the touched slot is keyed `k ≠ k'` both before and after
      have h1 : t'.live_match k' j = false := by
        apply Bool.eq_false_iff.mpr
        intro habs
        obtain ⟨ej, hej, -, hkj⟩ := live_match_eq_true_iff.mp habs
        rw [heq] at hej
        cases Option.some_inj.mp hej
        exact hk (by rw [← hkj, he'key])
      have h2 : t.live_match k' j = false := by
        apply Bool.eq_false_iff.mpr
        intro habs
        obtain ⟨ej, hej, htj, hkj⟩ := live_match_eq_true_iff.mp habs
        rw [hpj] at hej
        rw [hej] at hstop
        simp only [stop_slot, Bool.or_eq_true, decide_eq_true_eq] at hstop
        rcases hstop with h' | h'
        · rw [htj] at h'; cases h'
        · exact hk (by rw [← hkj, h'])
      rw [h1, h2]
  have hfun : t'.live_match k' = t.live_match k' := funext hlm
  unfold get_aux
  rw [show t'.capacity = t.capacity from rfl, hfun]
  rcases hf : find_first (t.live_match k') (t.capacity + 1) 0 with _ | j
  · rfl
  · simp only []
    obtain ⟨-, -, hmj, -⟩ := (find_first_some_iff _ _ _ _).mp hf
    obtain ⟨ej, hej, htj, hkj⟩ := live_match_eq_true_iff.mp hmj
    rcases hslot j with heq | ⟨-, hpj⟩
    · rw [show t'.probe_pos k' j = t.probe_pos k' j from rfl] at heq
      rw [show t'.slot_at (t'.probe_pos k' j) = t.slot_at (t.probe_pos k' j) from heq]
    · -- impossible: the old slot at the touched position was a stop slot for `k`
      exfalso
      rw [hpj] at hej
      rw [hej] at hstop
      simp only [stop_slot, Bool.or_eq_true, decide_eq_true_eq] at hstop
      rcases hstop with h' | h'
      · rw [htj] at h'; cases h'
      · exact hk (by rw [← hkj, h'])

/-- `putF` (with the pre-emptive resize) stores a value `get` then reads back. -/
theorem putF_get_aux {fuel : Nat} {t : HashMap K B} {k : K} {v : Option B}
    {t' : HashMap K B} (hInv : Inv t) (h : putF fuel t k v = some t') :
    get_aux t' k = some v := by
  cases fuel with
  | zero =>
    rw [putF_zero] at h
    by_cases hl : 2 * t.size < (t.capacity : Int)
    · rw [if_pos hl] at h
      exact put_core_get_aux hInv.2.1 h
    · rw [if_neg hl] at h
      exact absurd h (by simp)
  | succ fuel =>
    rw [putF_succ] at h
    by_cases hl : 2 * t.size < (t.capacity : Int)
    · rw [if_pos hl] at h
      exact put_core_get_aux hInv.2.1 h
    · rw [if_neg hl] at h
      rcases hr : resize_with (putF fuel) t (2 * t.capacity) with _ | t1
      · rw [hr] at h; exact absurd h (by simp)
      · rw [hr] at h
        replace h : put_core t1 k v = some t' := h
        have hI1 : Inv t1 :=
          (resize_inv (fun a b c d => put_inv _ a b c d) t (2 * t.capacity) t1 hInv hr).1
        exact put_core_get_aux hI1.2.1 h

/-! ### `get` and `remove` on absent keys -/

/-- If no probe ever live-matches `k`, `get` falls through all
`capacity + 1` probes returning `None`, and `remove` changes nothing. -/
theorem absent_behavior {t : HashMap K B} {k : K}
    (habs : ∀ j : Nat, t.live_match k j = false) :
    get_aux t k = none ∧ t.remove k = t ∧ get_probe_count t k = t.capacity + 1 := by
  have hff : find_first (t.live_match k) (t.capacity + 1) 0 = none :=
    (find_first_none_iff _ _ _).mpr fun j _ _ => habs j
  refine ⟨?_, ?_, ?_⟩
  · unfold get_aux; rw [hff]
  · unfold remove; rw [hff]
  · unfold get_probe_count; rw [hff]

/-- A key held by no live slot of the backing array never live-matches. -/
theorem live_match_false_of_no_slot {t : HashMap K B} {k : K}
    (h : ∀ p, p < t.buckets.length → ∀ e, t.buckets.getD p none = some e →
      e.is_tombstone = false → e.key ≠ k) :
    ∀ j : Nat, t.live_match k j = false := by
  intro j
  apply Bool.eq_false_iff.mpr
  intro habs
  obtain ⟨e, he, ht, hkey⟩ := live_match_eq_true_iff.mp habs
  rcases Nat.lt_or_ge (t.probe_pos k j) t.buckets.length with hp | hp
  · exact h _ hp e he ht hkey
  · rw [show t.slot_at (t.probe_pos k j) = t.buckets.getD (t.probe_pos k j) none from rfl,
      List.getD_eq_default] at he
    · cases he
    · exact hp

/-! ### The iteration protocol -/

theorem iter_collect_yields {t : HashMap K B} {fuel ix : Nat} {e : HashEntry K B}
    (h : hm_next t ix = IterStep.yields e) :
    iter_collect t (fuel + 1) ix =
      (e :: (iter_collect t fuel (ix + 1)).1, (iter_collect t fuel (ix + 1)).2) := by
  simp only [iter_collect, h]

theorem iter_collect_stops {t : HashMap K B} {fuel ix : Nat}
    (h : hm_next t ix = IterStep.stops) : iter_collect t (fuel + 1) ix = ([], false) := by
  simp only [iter_collect, h]

theorem iter_collect_oob {t : HashMap K B} {fuel ix : Nat}
    (h : hm_next t ix = IterStep.oob) : iter_collect t (fuel + 1) ix = ([], true) := by
  simp only [iter_collect, h]

theorem live_run_none (rest : List (Option (HashEntry K B))) :
    live_run (none :: rest) = [] := rfl

theorem live_run_some (e : HashEntry K B) (rest : List (Option (HashEntry K B))) :
    live_run (some e :: rest) =
      if e.is_tombstone = false then e :: live_run rest else [] := rfl

theorem iter_collect_spec (t : HashMap K B) :
    ∀ (fuel ix : Nat), t.buckets.length + 1 ≤ fuel + ix →
      (iter_collect t fuel ix).1 = live_run (t.buckets.drop ix) ∧
      ((iter_collect t fuel ix).2 = true ↔
        ∀ j, ix ≤ j → j < t.buckets.length → isLiveSlot (t.buckets.getD j none) = true) := by
  intro fuel
  induction fuel with
  | zero =>
    intro ix hfuel
    constructor
    · rw [List.drop_eq_nil_of_le (by omega)]
      rfl
    · constructor
      · intro _ j h1 h2; omega
      · intro _; rfl
  | succ fuel ih =>
    intro ix hfuel
    rcases Nat.lt_or_ge ix t.buckets.length with hix | hix
    · have hdrop := List.drop_eq_getElem_cons hix
      have hget : t.buckets[ix] = t.buckets.getD ix none :=
        (List.getD_eq_getElem t.buckets none hix).symm
      rw [hget] at hdrop
      rcases hs : t.buckets.getD ix none with _ | e
      · -- empty slot: StopIteration
        have hnext : hm_next t ix = IterStep.stops := by
          unfold hm_next
          rw [if_pos hix, hs]
        rw [iter_collect_stops hnext, hdrop, hs, live_run_none]
        refine ⟨rfl, iff_of_false (by simp) ?_⟩
        intro hall
        have := hall ix le_rfl hix
        rw [hs] at this
        exact absurd this (by simp [isLiveSlot])
      · by_cases ht : e.is_tombstone = false
        · -- live slot: yield and advance
          have hnext : hm_next t ix = IterStep.yields e := by
            unfold hm_next
            rw [if_pos hix, hs]
            simp [ht]
          obtain ⟨ih1, ih2⟩ := ih (ix + 1) (by omega)
          rw [iter_collect_yields hnext, hdrop, hs, live_run_some, if_pos ht]
          constructor
          · show e :: (iter_collect t fuel (ix + 1)).1 = e :: live_run (t.buckets.drop (ix + 1))
            rw [ih1]
          · show (iter_collect t fuel (ix + 1)).2 = true ↔ _
            rw [ih2]
            constructor
            · intro h j h1 h2
              rcases Nat.eq_or_lt_of_le h1 with rfl | h1p
              · rw [hs]; simp [isLiveSlot, ht]
              · exact h j (by omega) h2
            · intro h j h1 h2
              exact h j (by omega) h2
        · -- tombstoned slot: StopIteration
          have hnext : hm_next t ix = IterStep.stops := by
            unfold hm_next
            rw [if_pos hix, hs]
            simp [ht]
          rw [iter_collect_stops hnext, hdrop, hs, live_run_some, if_neg ht]
          refine ⟨rfl, iff_of_false (by simp) ?_⟩
          intro hall
          have := hall ix le_rfl hix
          rw [hs] at this
          simp only [isLiveSlot, Bool.not_eq_true'] at this
          exact ht this
    · -- cursor past the end: out-of-range error
      have hnext : hm_next t ix = IterStep.oob := by
        unfold hm_next
        rw [if_neg (by omega)]
      rw [iter_collect_oob hnext, List.drop_eq_nil_of_le hix]
      refine ⟨rfl, iff_of_true rfl ?_⟩
      intro j h1 h2
      omega

theorem liveCount_eq_length_of_all_live {l : List (Option (HashEntry K B))}
    (h : ∀ j, j < l.length → isLiveSlot (l.getD j none) = true) :
    liveCount l = l.length := by
  rw [liveCount_eq_countP, List.countP_eq_length]
  intro a ha
  obtain ⟨j, hj, rfl⟩ := List.mem_iff_getElem.mp ha
  rw [← List.getD_eq_getElem l none hj]
  exact h j hj

theorem getD_take {α : Type} {l : List α} {c p : Nat} {d : α} (h : p < c) :
    (l.take c).getD p d = l.getD p d := by
  rw [List.getD_eq_getElem?_getD, List.getD_eq_getElem?_getD, List.getElem?_take, if_pos h]

theorem good_fresh {c : Nat} (hc : Nat.Prime c) (f : K → Nat) :
    Good ({ buckets := List.replicate c none, capacity := c,
            hash_function := f, size := 0 } : HashMap K B) := by
  refine ⟨inv_fresh hc f, ?_, ?_, ?_⟩
  · intro p e he
    have he' : (List.replicate c (none : Option (HashEntry K B))).getD p none = some e := he
    rw [getD_replicate_self] at he'
    split at he' <;> cases he'
  · intro p q e1 e2 h1 h2 _ _ _
    exfalso
    have h1' : (List.replicate c (none : Option (HashEntry K B))).getD p none = some e1 := h1
    rw [getD_replicate_self] at h1'
    split at h1' <;> cases h1'
  · intro p e he
    exfalso
    have he' : (List.replicate c (none : Option (HashEntry K B))).getD p none = some e := he
    rw [getD_replicate_self] at he'
    split at he' <;> cases he'

/-- In a table with distinct live keys and probe-chained slots, `get` returns
the value of the (unique) live slot of `k`. -/
theorem good_get_aux_of_live {t : HashMap K B} {k : K} {p : Nat} {e : HashEntry K B}
    (hg : Good t) (he : t.buckets.getD p none = some e)
    (ht : e.is_tombstone = false) (hk : e.key = k) :
    get_aux t k = some e.value := by
  obtain ⟨hInv, -, hdist, hchain⟩ := hg
  obtain ⟨hprime, hlen, -, -, -⟩ := hInv
  obtain ⟨j, hj, hpos, -⟩ := hchain p e he ht
  have hcap0 : 0 < t.capacity := by have := hprime.two_le; omega
  -- the probe index `j` live-matches, so the loop returns at some index
  have hjm : t.live_match k j = true := by
    rw [live_match_eq_true_iff]
    refine ⟨e, ?_, ht, hk⟩
    show t.buckets.getD (t.probe_pos k j) none = some e
    rw [← hk, hpos]
    exact he
  rcases hf : find_first (t.live_match k) (t.capacity + 1) 0 with _ | j0
  · exfalso
    have := (find_first_none_iff _ _ _).mp hf j (by omega) (by omega)
    rw [hjm] at this
    cases this
  · obtain ⟨-, -, hm0, -⟩ := (find_first_some_iff _ _ _ _).mp hf
    obtain ⟨e0, he0, ht0, hk0⟩ := live_match_eq_true_iff.mp hm0
    have hpq : t.probe_pos k j0 = p := by
      refine hdist _ _ e0 e he0 he ht0 ht ?_
      rw [hk0, hk]
    unfold get_aux
    rw [hf]
    show (t.slot_at (t.probe_pos k j0)).map (fun e => e.value) = some e.value
    rw [show t.slot_at (t.probe_pos k j0) = t.buckets.getD (t.probe_pos k j0) none from rfl,
      hpq, he]
    rfl

/-- If `k` is live nowhere in the table, `get` returns `None`. -/
theorem get_aux_none_of_absent {t : HashMap K B} {k : K}
    (h : ∀ p e, t.buckets.getD p none = some e → e.is_tombstone = false → e.key ≠ k) :
    get_aux t k = none :=
  (absent_behavior (live_match_false_of_no_slot fun p _ e he ht => h p e he ht)).1

theorem lastVal_mem {es : List (K × Option B)} {k : K} {w : Option B}
    (h : lastVal es k = some w) : (k, w) ∈ es := by
  induction es with
  | nil => cases h
  | cons kv rest ih =>
    rcases kv with ⟨k0, v0⟩
    unfold lastVal at h
    rcases hr : lastVal rest k with _ | w'
    · rw [hr] at h
      simp only [] at h
      split at h
      · rename_i hk0
        cases h
        subst hk0
        exact List.mem_cons_self _ _
      · cases h
    · rw [hr] at h
      simp only [] at h
      cases h
      exact List.mem_cons_of_mem _ (ih hr)

theorem lastVal_isSome_of_mem {es : List (K × Option B)} {k : K} {v : Option B}
    (h : (k, v) ∈ es) : ∃ w, lastVal es k = some w := by
  induction es with
  | nil => cases h
  | cons kv rest ih =>
    rcases kv with ⟨k0, v0⟩
    unfold lastVal
    rcases hr : lastVal rest k with _ | w'
    · simp only []
      rcases List.mem_cons.mp h with heq | hmem
      · cases heq
        exact ⟨v, by rw [if_pos rfl]⟩
      · obtain ⟨w, hw⟩ := ih hmem
        rw [hw] at hr
        cases hr
    · exact ⟨w', rfl⟩

theorem lastVal_eq_some_of_unique {es : List (K × Option B)} {k : K} {v : Option B}
    (hmem : (k, v) ∈ es) (huniq : ∀ w, (k, w) ∈ es → w = v) : lastVal es k = some v := by
  obtain ⟨w, hw⟩ := lastVal_isSome_of_mem hmem
  rw [hw, huniq w (lastVal_mem hw)]

theorem lastVal_eq_none_of_not_mem {es : List (K × Option B)} {k : K}
    (h : ∀ v, (k, v) ∉ es) : lastVal es k = none := by
  rcases hr : lastVal es k with _ | w
  · rfl
  · exact absurd (lastVal_mem hr) (h w)

theorem mem_live_entries {l : List (Option (HashEntry K B))} {k : K} {v : Option B} :
    (k, v) ∈ live_entries l ↔
      ∃ p, p < l.length ∧ ∃ e, l.getD p none = some e ∧
        e.is_tombstone = false ∧ e.key = k ∧ e.value = v := by
  induction l with
  | nil => simp [live_entries]
  | cons x rest ih =>
    cases x with
    | none =>
      rw [show live_entries (none :: rest) = live_entries rest from rfl, ih]
      constructor
      · rintro ⟨p, hp, e, he, h1, h2, h3⟩
        exact ⟨p + 1, by simpa using hp, e, he, h1, h2, h3⟩
      · rintro ⟨p, hp, e, he, h1, h2, h3⟩
        cases p with
        | zero => cases he
        | succ p => exact ⟨p, by simpa using hp, e, he, h1, h2, h3⟩
    | some e0 =>
      by_cases ht : e0.is_tombstone
      · rw [show live_entries (some e0 :: rest) =
            if e0.is_tombstone then live_entries rest
            else (e0.key, e0.value) :: live_entries rest from rfl, if_pos ht, ih]
        constructor
        · rintro ⟨p, hp, e, he, h1, h2, h3⟩
          exact ⟨p + 1, by simpa using hp, e, he, h1, h2, h3⟩
        · rintro ⟨p, hp, e, he, h1, h2, h3⟩
          cases p with
          | zero =>
            cases Option.some_inj.mp he
            rw [ht] at h1
            cases h1
          | succ p => exact ⟨p, by simpa using hp, e, he, h1, h2, h3⟩
      · rw [show live_entries (some e0 :: rest) =
            if e0.is_tombstone then live_entries rest
            else (e0.key, e0.value) :: live_entries rest from rfl, if_neg ht]
        constructor
        · intro hmem
          rcases List.mem_cons.mp hmem with heq | hmem'
          · cases heq
            exact ⟨0, by simp, e0, rfl, by simpa using ht, rfl, rfl⟩
          · obtain ⟨p, hp, e, he, h1, h2, h3⟩ := ih.mp hmem'
            exact ⟨p + 1, by simpa using hp, e, he, h1, h2, h3⟩
        · rintro ⟨p, hp, e, he, h1, h2, h3⟩
          cases p with
          | zero =>
            cases Option.some_inj.mp he
            rw [← h2, ← h3]
            exact List.mem_cons_self _ _
          | succ p =>
            exact List.mem_cons_of_mem _ (ih.mpr ⟨p, by simpa using hp, e, he, h1, h2, h3⟩)

theorem getD_set_cases {l : List (Option (HashEntry K B))} {p q : Nat}
    {x : Option (HashEntry K B)} (hp : p < l.length) :
    (l.set p x).getD q none = if q = p then x else l.getD q none := by
  by_cases h : q = p
  · rw [if_pos h, h]
    exact getD_set_self hp
  · rw [if_neg h]
    exact getD_set_ne fun he => h he.symm

theorem probe_prefix_ne {t : HashMap K B} {k : K} {i : Nat}
    (hmin : ∀ j, j < i → stop_slot k (t.slot_at (t.probe_pos k j)) = false)
    (hstop : stop_slot k (t.slot_at (t.probe_pos k i)) = true) :
    ∀ j, j < i → t.probe_pos k j ≠ t.probe_pos k i := by
  intro j hj heq
  have hm := hmin j hj
  rw [show t.slot_at (t.probe_pos k j) = t.slot_at (t.probe_pos k i) from by rw [heq],
    hstop] at hm
  cases hm

/-- One `put` probe pass on a tombstone-free, duplicate-free, probe-chained
table preserves those invariants, stores the value where `get` reads it, and
does not disturb `get` for other keys. -/
theorem put_core_good {t : HashMap K B} {k : K} {v : Option B} {t' : HashMap K B}
    (hg : Good t) (hload : 2 * t.size < (t.capacity : Int))
    (h : put_core t k v = some t') :
    Good t' ∧ get_aux t' k = some v ∧ (∀ k', k' ≠ k → get_aux t' k' = get_aux t k') := by
  obtain ⟨hInv, hnt, hdist, hchain⟩ := hg
  have hlen := hInv.2.1
  have hIg := put_core_inv hInv hload h
  refine ⟨⟨hIg.1, ?_⟩, put_core_get_aux hlen h, fun k1 hk1 => put_core_get_aux_ne hlen h hk1⟩
  obtain ⟨i, hi, hmin, hstop, hcase⟩ := put_core_some h
  have hcap0 : 0 < t.capacity := by omega
  have hpos : t.probe_pos k i < t.capacity := Nat.mod_lt _ hcap0
  have hposlen : t.probe_pos k i < t.buckets.length := lt_of_lt_of_le hpos hlen
  have hne := probe_prefix_ne hmin hstop
  rcases hcase with ⟨hdead, rfl⟩ | ⟨e, he, htomb, hkey, rfl⟩
  · -- fresh insertion into what (with no tombstones) must be an empty slot
    have hnone : t.buckets.getD (t.probe_pos k i) none = none := by
      rcases hq : t.buckets.getD (t.probe_pos k i) none with _ | e0
      · rfl
      · exfalso
        have ht0 := hnt _ _ hq
        rw [show t.slot_at (t.probe_pos k i) = t.buckets.getD (t.probe_pos k i) none
          from rfl, hq] at hdead
        simp [isLiveSlot, ht0] at hdead
    -- `k` was live nowhere (otherwise its chained prefix contradicts the stop)
    have hnok : ∀ q e2, t.buckets.getD q none = some e2 → e2.is_tombstone = false →
        e2.key ≠ k := by
      intro q e2 hq ht2 hk2
      obtain ⟨j2, hj2, hpos2, hpre2⟩ := hchain q e2 hq ht2
      rw [hk2] at hpos2 hpre2
      rcases lt_trichotomy j2 i with hlt | heq | hgt
      · have := hmin j2 hlt
        rw [stop_slot_eq_false_iff] at this
        obtain ⟨e3, he3, -, hk3⟩ := this
        rw [show t.slot_at (t.probe_pos k j2) = t.buckets.getD (t.probe_pos k j2) none
          from rfl, hpos2, hq] at he3
        cases Option.some_inj.mp he3
        exact hk3 hk2
      · subst heq
        rw [hpos2, hq] at hnone
        cases hnone
      · have := hpre2 i hgt
        rw [show t.slot_at (t.probe_pos k i) = t.buckets.getD (t.probe_pos k i) none
          from rfl, hnone] at this
        cases this
    set bnew : List (Option (HashEntry K B)) :=
      t.buckets.set (t.probe_pos k i) (some ⟨k, v, false⟩) with hbnew
    have hget' : ∀ q, bnew.getD q none =
        if q = t.probe_pos k i then some ⟨k, v, false⟩ else t.buckets.getD q none :=
      fun q => getD_set_cases hposlen
    refine ⟨?_, ?_, ?_⟩
    · -- NoTomb
      intro p e1 hp
      rw [hget'] at hp
      split at hp
      · cases Option.some_inj.mp hp
        rfl
      · exact hnt _ _ hp
    · -- DistinctLive
      intro p q e1 e2 h1 h2 ht1 ht2 hk12
      rw [hget'] at h1 h2
      split at h1 <;> split at h2
      · rename_i hp1 hq1
        rw [hp1, hq1]
      · rename_i hp1 hq1
        cases Option.some_inj.mp h1
        exact absurd (by rw [← hk12]) (hnok q e2 h2 ht2)
      · rename_i hp1 hq1
        cases Option.some_inj.mp h2
        exact absurd (by rw [hk12]) (hnok p e1 h1 ht1)
      · exact hdist p q e1 e2 h1 h2 ht1 ht2 hk12
    · -- Chained
      intro p e1 hp ht1
      rw [hget'] at hp
      have hprobe : ∀ (k0 : K) (j : Nat),
          probe_pos { t with buckets := bnew, size := t.size + 1 } k0 j =
            t.probe_pos k0 j := fun _ _ => rfl
      split at hp
      · -- the newly written slot: its prefix was fully live and unchanged
        rename_i hp1
        cases Option.some_inj.mp hp
        refine ⟨i, hi, by rw [hprobe, hp1], ?_⟩
        intro j' hj'
        have hmj := hmin j' hj'
        rw [stop_slot_eq_false_iff] at hmj
        obtain ⟨e3, he3, ht3, -⟩ := hmj
        have hne' := hne j' hj'
        show isLiveSlot (bnew.getD (t.probe_pos k j') none) = true
        rw [hget', if_neg hne']
        rw [show t.slot_at (t.probe_pos k j') = t.buckets.getD (t.probe_pos k j') none
          from rfl] at he3
        rw [he3]
        simp [isLiveSlot, ht3]
      · -- an untouched slot: its old chain is still fully live
        rename_i hp1
        obtain ⟨j2, hj2, hpos2, hpre2⟩ := hchain p e1 hp ht1
        refine ⟨j2, hj2, by rw [hprobe, hpos2], ?_⟩
        intro j' hj'
        have hpre := hpre2 j' hj'
        show isLiveSlot (bnew.getD (t.probe_pos e1.key j') none) = true
        rw [hget']
        split
        · rfl
        · exact hpre
  · -- in-place value update: liveness and keys are unchanged everywhere
    set bnew : List (Option (HashEntry K B)) :=
      t.buckets.set (t.probe_pos k i) (some { e with value := v }) with hbnew
    have hget' : ∀ q, bnew.getD q none =
        if q = t.probe_pos k i then some { e with value := v }
        else t.buckets.getD q none := fun q => getD_set_cases hposlen
    have he' : t.buckets.getD (t.probe_pos k i) none = some e := he
    -- translate any slot of the new table to an equally-keyed slot of the old
    have htrans : ∀ p e1, bnew.getD p none = some e1 →
        ∃ e0, t.buckets.getD p none = some e0 ∧ e0.key = e1.key ∧
          e0.is_tombstone = e1.is_tombstone := by
      intro p e1 hp
      rw [hget'] at hp
      split at hp
      · rename_i hp1
        cases Option.some_inj.mp hp
        exact ⟨e, by rw [hp1]; exact he', rfl, rfl⟩
      · exact ⟨e1, hp, rfl, rfl⟩
    have hliveeq : ∀ x, isLiveSlot (bnew.getD x none) = isLiveSlot (t.buckets.getD x none) := by
      intro x
      rw [hget']
      split
      · rename_i hx
        rw [hx, he']
        rfl
      · rfl
    refine ⟨?_, ?_, ?_⟩
    · intro p e1 hp
      obtain ⟨e0, h0, -, hts⟩ := htrans p e1 hp
      rw [← hts]
      exact hnt _ _ h0
    · intro p q e1 e2 h1 h2 ht1 ht2 hk12
      obtain ⟨e01, h01, hk01, hts01⟩ := htrans p e1 h1
      obtain ⟨e02, h02, hk02, hts02⟩ := htrans q e2 h2
      exact hdist p q e01 e02 h01 h02 (by rw [hts01, ht1]) (by rw [hts02, ht2])
        (by rw [hk01, hk02, hk12])
    · intro p e1 hp ht1
      obtain ⟨e0, h0, hk0, hts0⟩ := htrans p e1 hp
      obtain ⟨j2, hj2, hpos2, hpre2⟩ := hchain p e0 h0 (by rw [hts0, ht1])
      refine ⟨j2, hj2, ?_, ?_⟩
      · show t.probe_pos e1.key j2 = p
        rw [← hk0]
        exact hpos2
      · intro j' hj'
        have hpre := hpre2 j' hj'
        show isLiveSlot (bnew.getD (t.probe_pos e1.key j') none) = true
        rw [← hk0, hliveeq]
        exact hpre

theorem get_aux_fresh_none {c : Nat} {f : K → Nat} {k : K} :
    get_aux ({ buckets := List.replicate c none
               capacity := c
               hash_function := f
               size := 0 } : HashMap K B) k = none := by
  apply get_aux_none_of_absent
  intro p e he _
  exfalso
  have he' : (List.replicate c (none : Option (HashEntry K B))).getD p none = some e := he
  rw [getD_replicate_self] at he'
  split at he' <;> cases he'

theorem reinsert_good {fuel : Nat}
    (hput : ∀ (t : HashMap K B) (k : K) (v : Option B) (t' : HashMap K B),
      Good t → putF fuel t k v = some t' →
      Good t' ∧ get_aux t' k = some v ∧ ∀ k', k' ≠ k → get_aux t' k' = get_aux t k') :
    ∀ (es : List (K × Option B)) (t0 t' : HashMap K B), Good t0 →
      reinsert_with (putF fuel) es t0 = some t' →
      Good t' ∧ ∀ k, get_aux t' k = orElseGA (lastVal es k) (get_aux t0 k) := by
  intro es
  induction es with
  | nil =>
    intro t0 t' h0 h
    have : t0 = t' := by simpa [reinsert_with] using h
    subst this
    exact ⟨h0, fun k => rfl⟩
  | cons kv rest ih =>
    rintro t0 t' h0 h
    rcases kv with ⟨k0, v0⟩
    unfold reinsert_with at h
    rcases hp : putF fuel t0 k0 v0 with _ | t1
    · rw [hp] at h
      exact absurd h (by simp)
    · rw [hp] at h
      simp only [] at h
      obtain ⟨hg1, hv1, hf1⟩ := hput t0 k0 v0 t1 h0 hp
      obtain ⟨hg2, hl2⟩ := ih t1 t' hg1 h
      refine ⟨hg2, fun k => ?_⟩
      rw [hl2 k]
      rcases hr : lastVal rest k with _ | w
      · have hcons : lastVal ((k0, v0) :: rest) k = if k0 = k then some v0 else none := by
          unfold lastVal
          rw [hr]
        rw [hcons]
        by_cases hk : k0 = k
        · rw [if_pos hk]
          show get_aux t1 k = some v0
          rw [← hk]
          exact hv1
        · rw [if_neg hk]
          show get_aux t1 k = get_aux t0 k
          exact hf1 k fun he => hk he.symm
      · have hcons : lastVal ((k0, v0) :: rest) k = some w := by
          unfold lastVal
          rw [hr]
        rw [hcons]
        rfl

theorem resize_good {fuel : Nat}
    (hput : ∀ (t : HashMap K B) (k : K) (v : Option B) (t' : HashMap K B),
      Good t → putF fuel t k v = some t' →
      Good t' ∧ get_aux t' k = some v ∧ ∀ k', k' ≠ k → get_aux t' k' = get_aux t k')
    (t : HashMap K B) (c : Nat) (t' : HashMap K B) (hg : Good t)
    (h : resize_with (putF fuel) t c = some t') :
    Good t' ∧ ∀ k, get_aux t' k = get_aux t k := by
  unfold resize_with at h
  by_cases hno : (c : Int) < t.size
  · rw [if_pos hno] at h
    have : t = t' := by simpa using h
    subst this
    exact ⟨hg, fun k => rfl⟩
  · rw [if_neg hno] at h
    simp only [] at h
    obtain ⟨hInv, hnt, hdist, hchain⟩ := hg
    obtain ⟨hprime, hlen, hhigh, hsz, hb⟩ := hInv
    have hc'p : Nat.Prime (if is_prime c then c else next_prime c) := by
      split
      · exact (is_prime_iff_prime c).mp ‹_›
      · exact next_prime_prime c
    have hfresh := good_fresh (B := B) hc'p t.hash_function
    obtain ⟨hg2, hl2⟩ := reinsert_good hput _ _ _ hfresh h
    refine ⟨⟨hg2.1, hg2.2⟩, fun k => ?_⟩
    rw [hl2 k, get_aux_fresh_none]
    by_cases hlive : ∃ p e, t.buckets.getD p none = some e ∧
        e.is_tombstone = false ∧ e.key = k
    · obtain ⟨p, e, hp, hte, hke⟩ := hlive
      have hplen : p < t.buckets.length := by
        rcases Nat.lt_or_ge p t.buckets.length with h' | h'
        · exact h'
        · rw [List.getD_eq_default _ _ h'] at hp
          cases hp
      have hpcap : p < t.capacity := by
        rcases Nat.lt_or_ge p t.capacity with h' | h'
        · exact h'
        · rw [hhigh p h'] at hp
          cases hp
      have htklen : p < (t.buckets.take t.capacity).length := by
        rw [List.length_take]
        exact lt_min hpcap hplen
      have hmem : (k, e.value) ∈ live_entries (t.buckets.take t.capacity) := by
        apply mem_live_entries.mpr
        exact ⟨p, htklen, e, by rw [getD_take hpcap]; exact hp, hte, hke, rfl⟩
      have huniq : ∀ w, (k, w) ∈ live_entries (t.buckets.take t.capacity) → w = e.value := by
        intro w hw
        obtain ⟨q, hq, e2, he2, ht2, hk2, hv2⟩ := mem_live_entries.mp hw
        rw [List.length_take] at hq
        have hqcap : q < t.capacity := lt_of_lt_of_le hq (min_le_left _ _)
        rw [getD_take hqcap] at he2
        have := hdist q p e2 e he2 hp ht2 hte (by rw [hk2, hke])
        subst this
        cases Option.some_inj.mp (he2.symm.trans hp)
        exact hv2.symm
      rw [lastVal_eq_some_of_unique hmem huniq,
        good_get_aux_of_live ⟨⟨hprime, hlen, hhigh, hsz, hb⟩, hnt, hdist, hchain⟩ hp hte hke]
      rfl
    · have hnm : ∀ w, (k, w) ∉ live_entries (t.buckets.take t.capacity) := by
        intro w hw
        obtain ⟨q, hq, e2, he2, ht2, hk2, -⟩ := mem_live_entries.mp hw
        rw [List.length_take] at hq
        have hqcap : q < t.capacity := lt_of_lt_of_le hq (min_le_left _ _)
        rw [getD_take hqcap] at he2
        exact hlive ⟨q, e2, he2, ht2, hk2⟩
      rw [lastVal_eq_none_of_not_mem hnm,
        get_aux_none_of_absent (fun p e he ht hk => hlive ⟨p, e, he, ht, hk⟩)]
      rfl

/-- After the internal `resize_table(2 * capacity)` of `put`, the load is
strictly below one half. -/
theorem resize_double_load {fuel : Nat} {t t1 : HashMap K B} (hInv : Inv t)
    (hr : resize_with (putF fuel) t (2 * t.capacity) = some t1) :
    2 * t1.size < (t1.capacity : Int) := by
  obtain ⟨hI1, hs1, hd⟩ := resize_inv (fun a b c d => put_inv fuel a b c d) _ _ _ hInv hr
  have hcap2 := hInv.1.two_le
  have hszcap : t.size ≤ (t.capacity : Int) := by
    obtain ⟨-, -, -, -, hb⟩ := hInv
    omega
  have hcap1 : 2 * t.capacity + 1 ≤ t1.capacity := by
    rcases hd with ⟨hlt, rfl⟩ | hd
    · exfalso
      push_cast at hlt
      omega
    · have hev : is_prime (2 * t.capacity) = false := by
        cases hq : is_prime (2 * t.capacity)
        · rfl
        · exfalso
          have hpr := (is_prime_iff_prime _).mp hq
          have h2d : (2 : Nat) ∣ 2 * t.capacity := ⟨t.capacity, rfl⟩
          rcases hpr.eq_one_or_self_of_dvd 2 h2d with h' | h' <;> omega
      rw [hev] at hd
      simp only [Bool.false_eq_true, if_false] at hd
      have := next_prime_even_gt (n := 2 * t.capacity) (by omega)
      omega
  obtain ⟨-, -, -, -, hb⟩ := hInv
  push_cast at hcap1 ⊢
  omega

theorem put_good : ∀ (fuel : Nat) (t : HashMap K B) (k : K) (v : Option B)
    (t' : HashMap K B), Good t → putF fuel t k v = some t' →
    Good t' ∧ get_aux t' k = some v ∧ ∀ k', k' ≠ k → get_aux t' k' = get_aux t k' := by
  intro fuel
  induction fuel with
  | zero =>
    intro t k v t' hg h
    rw [putF_zero] at h
    by_cases hl : 2 * t.size < (t.capacity : Int)
    · rw [if_pos hl] at h
      exact put_core_good hg hl h
    · rw [if_neg hl] at h
      exact absurd h (by simp)
  | succ fuel ih =>
    intro t k v t' hg h
    rw [putF_succ] at h
    by_cases hl : 2 * t.size < (t.capacity : Int)
    · rw [if_pos hl] at h
      exact put_core_good hg hl h
    · rw [if_neg hl] at h
      rcases hr : resize_with (putF fuel) t (2 * t.capacity) with _ | t1
      · rw [hr] at h
        exact absurd h (by simp)
      · rw [hr] at h
        replace h : put_core t1 k v = some t' := h
        obtain ⟨hg1, hpre⟩ := resize_good ih t (2 * t.capacity) t1 hg hr
        have hload1 := resize_double_load hg.1 hr
        obtain ⟨hg', hget', hframe'⟩ := put_core_good hg1 hload1 h
        exact ⟨hg', hget', fun k' hk' => (hframe' k' hk').trans (hpre k')⟩

/-- Every table reachable without `remove` satisfies the strong invariant. -/
theorem reachablePR_good {t : HashMap K B} (h : ReachablePR t) : Good t := by
  induction h with
  | init c f => exact good_fresh (next_prime_prime c) f
  | put _ hstep ih => exact (put_good _ _ _ _ _ ih hstep).1
  | resize _ hstep ih =>
    exact (resize_good (fun a b c d => put_good _ a b c d) _ _ _ ih hstep).1

/-- On remove-free tables, an explicit `resize_table` preserves `get` for
every key. -/
theorem resize_preserves_get {fuel c : Nat} {t t' : HashMap K B}
    (h : ReachablePR t) (hr : resize_tableF fuel t c = some t') (k : K) :
    get t' k = get t k := by
  have := (resize_good (fun a b c d => put_good _ a b c d) t c t'
    (reachablePR_good h) hr).2 k
  unfold get
  rw [this]

theorem has_live_key_false {t : HashMap K B} {k : K} (h : has_live_key t k = false) :
    ∀ p e, t.buckets.getD p none = some e → e.is_tombstone = false → e.key ≠ k := by
  intro p e hp ht hk
  have hplen : p < t.buckets.length := by
    rcases Nat.lt_or_ge p t.buckets.length with h' | h'
    · exact h'
    · rw [List.getD_eq_default _ _ h'] at hp
      cases hp
  have hmem : some e ∈ t.buckets := by
    rw [List.getD_eq_getElem t.buckets none hplen] at hp
    rw [← hp]
    exact t.buckets.getElem_mem hplen
  have htrue : t.buckets.any (fun s =>
      match s with
      | some e => !e.is_tombstone && decide (e.key = k)
      | none => false) = true :=
    List.any_eq_true.mpr ⟨some e, hmem, by simp [ht, hk]⟩
  unfold has_live_key at h
  rw [htrue] at h
  cases h

/-! ### The claims -/

/-- C1 (amended): immediately after any `put` returns on a reachable table,
`2 * get_size() ≤ get_capacity() + 1`, i.e. `table_load()` is at most
`(capacity + 1) / (2 * capacity)` — one half plus half a slot.  The spec's
bound `table_load() ≤ 0.5` itself can be exceeded, since the pre-emptive
resize checks the load before the new entry is placed. -/
theorem claim_C1 {fuel : Nat} {t : HashMap K B} {k : K} {v : Option B}
    {t' : HashMap K B} (hre : Reachable t) (h : putF fuel t k v = some t') :
    2 * get_size t' ≤ (get_capacity t' : Int) + 1 ∧
    table_load t' ≤ ((get_capacity t' : ℚ) + 1) / (2 * (get_capacity t' : ℚ)) := by
  obtain ⟨hp, -, -, -, hb⟩ := (put_inv fuel t k v t' (reachable_inv hre) h).1
  have h2 := hp.two_le
  refine ⟨hb, ?_⟩
  unfold table_load get_capacity
  have hc : (0 : ℚ) < (t'.capacity : ℚ) := by exact_mod_cast (by omega : 0 < t'.capacity)
  rw [div_le_div_iff hc (by linarith)]
  have hbq : 2 * (t'.size : ℚ) ≤ (t'.capacity : ℚ) + 1 := by exact_mod_cast hb
  nlinarith [hbq, hc]

theorem claim_C1_witness :
    2 * get_size W2 ≤ (get_capacity W2 : Int) + 1 ∧
    table_load W2 ≤ ((get_capacity W2 : ℚ) + 1) / (2 * (get_capacity W2 : ℚ)) :=
  claim_C1 (show Reachable init3 from Reachable.init 3 hash_id)
    (show putF 1 init3 0 (some 5) = some W2 from rfl)

/-- C1 counterexample: after `HashMap(3, hash); put(0, 10); put(1, 20)` the
load factor is `2/3 > 0.5` immediately after the second `put` returns. -/
theorem claim_C1_counterexample :
    (putF 1 init3 0 (some 10)).bind (fun u => putF 1 u 1 (some 20)) = some T11 ∧
    ¬ (table_load T11 ≤ 1 / 2) :=
  ⟨rfl, by norm_num [table_load, T11]⟩

/-- C2 (confirmed): on any reachable table, `put(k, v)` followed by `get(k)`
returns exactly `v` (including `v = None`). -/
theorem claim_C2 {fuel : Nat} {t : HashMap K B} {k : K} {v : Option B}
    {t' : HashMap K B} (hre : Reachable t) (h : putF fuel t k v = some t') :
    get t' k = v := by
  unfold get
  rw [putF_get_aux (reachable_inv hre) h]

theorem claim_C2_witness : get W2 0 = some 5 :=
  claim_C2 (show Reachable init3 from Reachable.init 3 hash_id)
    (show putF 1 init3 0 (some 5) = some W2 from rfl)

/-- C3 (amended): when `put(k, v)` performs no pre-emptive resize
(`2 * size < capacity`) and the first probe-stopping slot on `k`'s probe
sequence is a live (non-tombstoned) slot — necessarily holding `k` — then
`put` updates that slot in place: `get_size()` is unchanged and `get(k)`
returns `v`.  When a tombstoned or empty slot precedes `k`'s live slot on
the probe sequence, `put` instead inserts a fresh entry and `get_size()`
grows (see the counterexample). -/
theorem claim_C3 {fuel : Nat} {t : HashMap K B} {k : K} {v : Option B} {i : Nat}
    {e : HashEntry K B} {t' : HashMap K B} (hre : Reachable t)
    (hl : 2 * get_size t < (get_capacity t : Int))
    (hf : find_first (fun j => stop_slot k (t.slot_at (t.probe_pos k j))) t.capacity 0 =
      some i)
    (he : t.slot_at (t.probe_pos k i) = some e) (htm : e.is_tombstone = false)
    (h : putF fuel t k v = some t') :
    get_size t' = get_size t ∧ get t' k = v := by
  have hl' : 2 * t.size < (t.capacity : Int) := hl
  have hpc : put_core t k v = some t' := by
    cases fuel with
    | zero => rw [putF_zero, if_pos hl'] at h; exact h
    | succ fuel => rw [putF_succ, if_pos hl'] at h; exact h
  have hget : get t' k = v := by
    unfold get
    rw [put_core_get_aux (reachable_inv hre).2.1 hpc]
  refine ⟨?_, hget⟩
  unfold put_core at hpc
  rw [hf] at hpc
  simp only [] at hpc
  rw [he] at hpc
  simp only [] at hpc
  rw [if_neg (by simp [htm])] at hpc
  cases Option.some_inj.mp hpc
  rfl

theorem claim_C3_witness : get_size W3 = get_size W2 ∧ get W3 0 = some 9 :=
  claim_C3
    (show Reachable W2 from Reachable.put (Reachable.init 3 hash_id)
      (show putF 1 init3 0 (some 5) = some W2 from rfl))
    (by decide) rfl rfl rfl
    (show putF 1 W2 0 (some 9) = some W3 from rfl)

/-- C3 counterexample: `put(0, 1); put(3, 2); remove(0)` leaves a tombstone
at slot 0 on key 3's probe path before key 3's live slot 1; the next
`put(3, 7)` stops at the tombstone and inserts a duplicate, so `get_size()`
changes from 1 to 2 even though key 3 already existed as a live entry. -/
theorem claim_C3_counterexample :
    (putF 1 init3 0 (some 1)).bind (fun u => putF 1 u 3 (some 2)) = some C3a ∧
    remove C3a 0 = C3b ∧
    C3b.buckets.getD 1 none = some ⟨3, some 2, false⟩ ∧
    get_aux C3b 3 = some (some 2) ∧
    putF 1 C3b 3 (some 7) = some C3c ∧
    get_size C3b = 1 ∧ get_size C3c = 2 ∧ ¬ ((2 : Int) = 1) :=
  ⟨rfl, rfl, rfl, rfl, rfl, rfl, rfl, by decide⟩

/-- C4 (amended): for every table reachable using only the constructor,
`put` and `resize_table` (no `remove`), `resize_table(c)` with
`c ≥ get_size()` leaves `get(k)` unchanged for every key `k`.  On tables
whose history includes `remove`, the claim fails: a tombstone can make `put`
create a duplicate live key, and the rebuild collapses the duplicates,
changing `get` (see the counterexample). -/
theorem claim_C4 {fuel c : Nat} {t t' : HashMap K B} (hre : ReachablePR t)
    (hc : get_size t ≤ (c : Int)) (hr : resize_tableF fuel t c = some t') :
    ∀ k, get t' k = get t k :=
  fun k => resize_preserves_get hre hr k

theorem claim_C4_witness : get W4 0 = get W2 0 ∧ get W4 1 = get W2 1 :=
  ⟨claim_C4
      (show ReachablePR W2 from ReachablePR.put (ReachablePR.init 3 hash_id)
        (show putF 1 init3 0 (some 5) = some W2 from rfl))
      (by decide) (show resize_tableF 1 W2 7 = some W4 from rfl) 0,
    claim_C4
      (show ReachablePR W2 from ReachablePR.put (ReachablePR.init 3 hash_id)
        (show putF 1 init3 0 (some 5) = some W2 from rfl))
      (by decide) (show resize_tableF 1 W2 7 = some W4 from rfl) 1⟩

/-- C4 counterexample: on the reachable table `C3c` (built with one
`remove`), key 3 occupies two live slots with `get 3 = 7`;
`resize_table(7)` (with 7 ≥ size) collapses the duplicates and
`get 3` becomes 2. -/
theorem claim_C4_counterexample :
    (putF 1 init3 0 (some 1)).bind (fun u => putF 1 u 3 (some 2)) = some C3a ∧
    remove C3a 0 = C3b ∧
    putF 1 C3b 3 (some 7) = some C3c ∧
    get C3c 3 = some 7 ∧ get_size C3c ≤ (7 : Int) ∧
    resize_tableF 1 C3c 7 = some C4d ∧
    get C4d 3 = some 2 ∧ ¬ ((some 2 : Option Nat) = some 7) :=
  ⟨rfl, rfl, rfl, rfl, by decide, rfl, rfl, by decide⟩

/-- C5 (confirmed): every reachable table's capacity is prime; an honoured
`resize_table(c)` (one not silently dropped because `c < size`) ends with
capacity at least `c`; and construction promotes the requested capacity to
at least itself. -/
theorem claim_C5 {t : HashMap K B} (hre : Reachable t) :
    Nat.Prime (get_capacity t) ∧
    (∀ (fuel c : Nat) (t' : HashMap K B), resize_tableF fuel t c = some t' →
      (c : Int) < get_size t ∨ c ≤ get_capacity t') ∧
    (∀ (c : Nat) (f : K → Nat), c ≤ get_capacity (hm_init c f (K := K) (B := B))) := by
  refine ⟨(reachable_inv hre).1, ?_, fun c f => le_next_prime c⟩
  intro fuel c t' hr
  obtain ⟨-, -, hd⟩ :=
    resize_inv (fun a b c d => put_inv fuel a b c d) t c t' (reachable_inv hre) hr
  rcases hd with ⟨hlt, -⟩ | hd
  · exact Or.inl hlt
  · right
    revert hd
    split
    · exact fun hd => hd
    · exact fun hd => le_trans (le_next_prime c) hd

theorem claim_C5_witness : Nat.Prime (get_capacity W2) :=
  (claim_C5 (show Reachable W2 from Reachable.put (Reachable.init 3 hash_id)
    (show putF 1 init3 0 (some 5) = some W2 from rfl))).1

/-- C6 (amended): for a key held by no live slot, `get` falls through its
whole loop and returns the absent sentinel `None`, and `remove` leaves the
table unchanged — but the loop `while count <= capacity` performs
`capacity + 1` probes (`count = 0, ..., capacity`), not `capacity`; the
final probe revisits the initial position, so the outcome equals that of a
`capacity`-probe cap. -/
theorem claim_C6 {t : HashMap K B} {k : K} (habs : has_live_key t k = false) :
    get t k = none ∧ t.remove k = t ∧ get_probe_count t k = get_capacity t + 1 := by
  have h := absent_behavior
    (live_match_false_of_no_slot fun p _ e he ht => has_live_key_false habs p e he ht)
  refine ⟨?_, h.2.1, h.2.2⟩
  unfold get
  rw [h.1]

theorem claim_C6_witness :
    get init3 5 = none ∧ remove init3 5 = init3 ∧
    get_probe_count init3 5 = get_capacity init3 + 1 :=
  claim_C6 (by rfl)

/-- C6 counterexample: on an empty capacity-3 table, looking up the absent
key 5 examines `capacity + 1 = 4` probes, exceeding the claimed cap of
`capacity` probes. -/
theorem claim_C6_counterexample :
    get_probe_count init3 5 = get_capacity init3 + 1 ∧
    ¬ (get_probe_count init3 5 ≤ get_capacity init3) :=
  ⟨rfl, by decide⟩

/-- C7 (confirmed): the iteration protocol (`__iter__` then repeated
`__next__`) yields exactly the contiguous run of live entries at the head of
the slot array, in ascending slot order from index 0, terminating at the
first empty or tombstoned slot without skipping gaps. -/
theorem claim_C7 (t : HashMap K B) : (hm_iterate t).1 = live_run t.buckets := by
  have h := (iter_collect_spec t (t.buckets.length + 1) 0 (by omega)).1
  rw [List.drop_zero] at h
  exact h

/-- C8 (confirmed): on any reachable table, `resize_table(c)` with
`c < get_size()` returns immediately, leaving the table exactly as it was
and raising no error. -/
theorem claim_C8 {fuel c : Nat} {t : HashMap K B} (hre : Reachable t)
    (hc : (c : Int) < get_size t) : resize_tableF fuel t c = some t := by
  unfold resize_tableF resize_with
  rw [if_pos (show (c : Int) < t.size from hc)]

theorem claim_C8_witness : resize_tableF 1 W5 1 = some W5 :=
  claim_C8
    (show Reachable W5 from Reachable.put
      (Reachable.put (Reachable.init 3 hash_id)
        (show putF 1 init3 0 (some 5) = some W2 from rfl))
      (show putF 1 W2 1 (some 2) = some W5 from rfl))
    (by decide)

/-- C9 (confirmed): after `put(k, None)` on a reachable table, `get(k)`
returns `None` exactly as for an absent key and `contains_key(k)` is false,
even though `k` occupies a live (Occupied, non-tombstoned) slot storing
`None` and `get_size()` counts exactly the live slots, that one included. -/
theorem claim_C9 {fuel : Nat} {t : HashMap K B} {k : K} {t' : HashMap K B}
    (hre : Reachable t) (h : putF fuel t k none = some t') :
    get t' k = none ∧ contains_key t' k = false ∧
    (∃ p e, t'.buckets.getD p none = some e ∧ e.is_tombstone = false ∧
      e.key = k ∧ e.value = none) ∧
    get_size t' = (liveCount t'.buckets : Int) := by
  have hga : get_aux t' k = some none := putF_get_aux (reachable_inv hre) h
  have hget : get t' k = none := by
    unfold get
    rw [hga]
  refine ⟨hget, by unfold contains_key; rw [hget], ?_, ?_⟩
  · unfold get_aux at hga
    rcases hf : find_first (t'.live_match k) (t'.capacity + 1) 0 with _ | j
    · rw [hf] at hga
      cases hga
    · rw [hf] at hga
      simp only [] at hga
      obtain ⟨-, -, hm, -⟩ := (find_first_some_iff _ _ _ _).mp hf
      obtain ⟨e, he, ht, hk⟩ := live_match_eq_true_iff.mp hm
      rw [he] at hga
      refine ⟨t'.probe_pos k j, e, he, ht, hk, ?_⟩
      exact Option.some_inj.mp hga
  · exact (reachable_inv (Reachable.put hre h)).2.2.2.1

theorem claim_C9_witness : get W9 0 = none ∧ contains_key W9 0 = false :=
  ⟨(claim_C9 (show Reachable init3 from Reachable.init 3 hash_id)
      (show putF 1 init3 0 none = some W9 from rfl)).1,
    (claim_C9 (show Reachable init3 from Reachable.init 3 hash_id)
      (show putF 1 init3 0 none = some W9 from rfl)).2.1⟩

/-- C10 (confirmed): every reachable table keeps strictly fewer live
(Occupied) slots than backing-array slots, so the iteration protocol always
meets an empty or tombstoned slot and ends in `StopIteration` — never in the
backing array's out-of-range error. -/
theorem claim_C10 {t : HashMap K B} (hre : Reachable t) :
    liveCount t.buckets < t.buckets.length ∧ (hm_iterate t).2 = false := by
  obtain ⟨hp, hlen, -, hsz, hb⟩ := reachable_inv hre
  have h2 := hp.two_le
  rw [hsz] at hb
  have hlc : 2 * liveCount t.buckets ≤ t.capacity + 1 := by exact_mod_cast hb
  have h1 : liveCount t.buckets < t.buckets.length := by omega
  refine ⟨h1, ?_⟩
  cases hbool : (hm_iterate t).2 with
  | false => rfl
  | true =>
    exfalso
    have hall := ((iter_collect_spec t (t.buckets.length + 1) 0 (by omega)).2).mp hbool
    have := liveCount_eq_length_of_all_live fun j hj => hall j (Nat.zero_le j) hj
    omega

theorem claim_C10_witness :
    liveCount init3.buckets < init3.buckets.length ∧ (hm_iterate init3).2 = false :=
  claim_C10 (show Reachable init3 from Reachable.init 3 hash_id)

end HashMap

